import Mathlib

set_option maxRecDepth 100000

/-!
Verification of the Adaptive Columnar Perfect Hashing (ACPH) core,
a shallow embedding of `src/acph.c`.

Modelling conventions:
* a byte is a `Nat` (assumed `< 256` where the C type `uint8_t` forces it);
* a `BinaryValue` (pointer + length) is a `List Nat` of its bytes;
* a `Payload` is an opaque `Nat`;
* parallel key/payload arrays are a single `List (List Nat × Nat)`;
* C functions returning `NULL` sentinels are modelled with `Option`;
* the per-prime slot table `SLOT slot_table[256]` is a total function
  `Nat → Nat × Nat` (character, count), initially constantly `(0, 0)`,
  matching the zero-initialisation of the counts in `find_best_hash`;
* `create_binary_hash` recurses on groups that are strictly smaller than the
  input (the C code's termination argument); the embedding makes this a
  structural recursion on a fuel equal to the number of keys, and the
  fuel-zero case coincides with the C code's `num_values < 1` NULL return;
* the `PANIC: Binary not found` branch of `create_binary_hash` (the C code
  aborts the process; the branch is unreachable, which is proved below as
  `find_unique_of_built`) is modelled by a dummy leaf;
* the gathering loop for slots with `count >= 2` reads
  `values[j].binary[node->column]` without the length guard used everywhere
  else; the embedding reads the virtually padded byte (`padByte`), and the
  predicate `gather_reads_out_of_bounds` records exactly when the C loop's
  raw read is past the end of a key (see claim C4).
-/

namespace ACPH

/-- The hash kernel of `src/acph.c` (`hash_function`): identity for a
256-slot table, otherwise `(((a - 1) XOR b) * a) mod (num_slots + 1)`. -/
def hash_function (character a num_slots : Nat) : Nat :=
  if num_slots = 255 then character
  else (((a - 1) ^^^ character) * a) % (num_slots + 1)

/-- The fixed prime table of `find_best_hash`. -/
def primes : List Nat :=
  [2, 3, 5, 7, 11, 13, 17, 19, 23, 29, 31, 37, 41, 43, 47, 53, 59, 61, 67,
   71, 73, 79, 83, 89, 97, 101, 103, 107, 113, 127, 131, 137, 149, 151, 157,
   163, 167, 173, 211, 223, 227, 229, 233, 239, 241, 251]

/-- `calculate_character_distribution`, unique-character count: the number of
byte values `c < 256` occurring in the array. -/
def unique_chars (chars : List Nat) : Nat :=
  ((List.range 256).filter (fun c => chars.count c != 0)).length

/-- `calculate_character_distribution`, maximum multiplicity: the largest
occurrence count of a single byte value. -/
def max_occurrence (chars : List Nat) : Nat :=
  ((List.range 256).map (fun c => chars.count c)).foldr max 0

/-- Pointwise update of a slot table. -/
def updTbl (tbl : Nat → Nat × Nat) (s : Nat) (v : Nat × Nat) : Nat → Nat × Nat :=
  fun i => if i = s then v else tbl i

/-- The routing simulation inside `find_best_hash` for one `(a, m)` candidate:
place each byte in its slot; `none` models the `false_positive` break, and on
success the final slot table and differential score are returned. -/
def route (a m : Nat) : List Nat → (Nat → Nat × Nat) → Nat → Option ((Nat → Nat × Nat) × Nat)
  | [], tbl, diff => some (tbl, diff)
  | c :: rest, tbl, diff =>
    if (tbl (hash_function c a m)).2 = 0 then
      route a m rest (updTbl tbl (hash_function c a m) (c, 1)) diff
    else if (tbl (hash_function c a m)).1 = c then
      route a m rest (updTbl tbl (hash_function c a m) (c, (tbl (hash_function c a m)).2 + 1))
        (if diff < (tbl (hash_function c a m)).2 + 1
         then (tbl (hash_function c a m)).2 + 1 else diff)
    else
      none

/-- The running best candidate of `find_best_hash`
(`best_score`, `best_a`, `best_m`, `best_slot_table`). -/
structure Best where
  score : Nat
  a : Nat
  m : Nat
  tbl : Nat → Nat × Nat

/-- The inner prime loop of `find_best_hash`; the `Bool` is the
`goto found_hash` short-circuit taken when the best score reaches the best
possible score. -/
def tryPrimes (chars : List Nat) (bps m : Nat) : List Nat → Best → Best × Bool
  | [], best => (best, false)
  | a :: rest, best =>
    match route a m chars (fun _ => (0, 0)) bps with
    | none => tryPrimes chars bps m rest best
    | some (tbl, diff) =>
      let best' := if diff < best.score then ⟨diff, a, m, tbl⟩ else best
      if best'.score = bps then (best', true)
      else tryPrimes chars bps m rest best'

/-- The outer do-while loop of `find_best_hash`: the zero-based slot count is
incremented (as a `uint8_t`, i.e. mod 256) before each pass, and the loop
stops after the pass with `m = 255` (or at the short-circuit).  The fuel
argument is 256 at the top call, enough for every possible start. -/
def searchSlots (chars : List Nat) (bps : Nat) : Nat → Nat → Best → Best
  | 0, _, best => best
  | fuel + 1, m, best =>
    let m' := (m + 1) % 256
    let r := tryPrimes chars bps m' primes best
    if r.2 then r.1
    else if m' < 255 then searchSlots chars bps fuel m' r.1
    else r.1

/-- `find_best_hash`: returns the selected prime, the zero-based slot count,
and the slot array as a list of (character, count) pairs. -/
def find_best_hash (chars : List Nat) (bps mu : Nat) : Nat × Nat × List (Nat × Nat) :=
  let best := searchSlots chars bps 256 ((mu + 255) % 256)
      ⟨chars.length + 1, 0, 0, fun _ => (0, 0)⟩
  (best.a, best.m, (List.range (best.m + 1)).map best.tbl)

mutual
/-- A node of the hash tree: column, prime, zero-based slot count, slots. -/
inductive HTree where
  | node (column : Nat) (prime : Nat) (num_slots : Nat) (slots : List HSlot)
/-- A slot: empty (`count == 0`), leaf (`count == 1`, owns a copy of the full
key and the payload), or branch (`count >= 2`, owns a child node). -/
inductive HSlot where
  | empty
  | leaf (character : Nat) (key : List Nat) (payload : Nat)
  | branch (character : Nat) (child : HTree)
end

/-- The virtual-padding read: byte `c` of a key, `0x00` past its end. -/
def padByte (key : List Nat) (c : Nat) : Nat := key.getD c 0

/-- The byte image of one column of a key set (`column_chars`). -/
def columnChars (values : List (List Nat)) (c : Nat) : List Nat :=
  values.map (fun k => padByte k c)

/-- The largest key length. -/
def maxLen (values : List (List Nat)) : Nat :=
  (values.map List.length).foldr max 0

/-- One step of the column survey: keep the incumbent unless the scanned
column has a strictly smaller maximum multiplicity. -/
def surveyStep (values : List (List Nat)) (best : Nat × Nat × Nat) (c : Nat) : Nat × Nat × Nat :=
  if max_occurrence (columnChars values c) < best.2.1
  then (c, max_occurrence (columnChars values c), unique_chars (columnChars values c))
  else best

/-- The column survey of `create_binary_hash`: scan the columns `0 .. maxLen`
(the loop body runs once more after `last_column` is first detected), keeping
the earliest column with the smallest maximum multiplicity.  Returns
(best column, its max multiplicity, its unique count). -/
def survey (values : List (List Nat)) : Nat × Nat × Nat :=
  (List.range (maxLen values + 1)).foldl (surveyStep values) (0, values.length + 1, 0)

/-- Option-valued map over a list, failing if any element fails; this is the
slot-population loop of `create_binary_hash`, which aborts the whole build
when a recursive call signals a duplicate. -/
def optMap {α β : Type} (f : α → Option β) : List α → Option (List β)
  | [] => some []
  | x :: rest =>
    match f x with
    | none => none
    | some y =>
      match optMap f rest with
      | none => none
      | some ys => some (y :: ys)

/-- One pass of the slot-population loop of `create_binary_hash`: an entry
with count 0 stays empty, count 1 stores the first key whose padded byte at
the column matches (the C code PANICs when none matches; that unreachable
branch is a dummy leaf here), and count at least 2 gathers the matching keys
and recurses through `rec`. -/
def buildSlotWith (rec : List (List Nat × Nat) → Option HTree)
    (pairs : List (List Nat × Nat)) (col : Nat) (e : Nat × Nat) : Option HSlot :=
  if e.2 = 0 then some HSlot.empty
  else if e.2 = 1 then
    match pairs.find? (fun p => padByte p.1 col == e.1) with
    | some p => some (HSlot.leaf e.1 p.1 p.2)
    | none => some (HSlot.leaf e.1 [] 0)
  else
    match rec (pairs.filter (fun p => padByte p.1 col == e.1)) with
    | some child => some (HSlot.branch e.1 child)
    | none => none

/-- `create_binary_hash` with explicit fuel; the real entry point passes the
number of keys as fuel, and recursive calls are on strictly smaller key sets,
so fuel zero is reached exactly on the C code's `num_values < 1` check. -/
def create_binary_hash_fuel : Nat → List (List Nat × Nat) → Option HTree
  | 0, _ => none
  | fuel + 1, pairs =>
    if pairs.length < 1 then none
    else
      let values := pairs.map Prod.fst
      let sv := survey values
      if sv.2.2 = 1 ∧ 1 < pairs.length then none
      else
        let fb := find_best_hash (columnChars values sv.1) sv.2.1 sv.2.2
        match optMap (buildSlotWith (create_binary_hash_fuel fuel) pairs sv.1) fb.2.2 with
        | some slots => some (HTree.node sv.1 fb.1 fb.2.1 slots)
        | none => none

/-- `create_binary_hash`: build the tree from parallel keys and payloads;
`none` is the NULL sentinel (empty input or duplicate keys). -/
def create_binary_hash (pairs : List (List Nat × Nat)) : Option HTree :=
  create_binary_hash_fuel pairs.length pairs

mutual
/-- `lookup_binary`: route the key by the padded byte at the node's column and
compare exactly at a leaf.  Returns the payload when found. -/
def lookup_binary (key : List Nat) : HTree → Option Nat
  | .node col a m slots => lookupIdx key (hash_function (padByte key col) a m) slots
/-- Indexing `node->slot[slot]` of `lookup_binary`. -/
def lookupIdx (key : List Nat) : Nat → List HSlot → Option Nat
  | _, [] => none
  | 0, s :: _ => lookupSlot key s
  | i + 1, _ :: rest => lookupIdx key i rest
/-- The per-slot case split of `lookup_binary` (empty / leaf / branch). -/
def lookupSlot (key : List Nat) : HSlot → Option Nat
  | .empty => none
  | .leaf _ k p => if key = k then some p else none
  | .branch _ child => lookup_binary key child
end

/-- Componentwise combination used by the efficiency walk:
sums of slot totals and empty totals, max of child comparison depths. -/
def effCombine (x y : Nat × Nat × Nat) : Nat × Nat × Nat :=
  (x.1 + y.1, x.2.1 + y.2.1, max x.2.2 y.2.2)

mutual
/-- `hash_efficiency`: returns (`slots_used`, `empty_slots`,
`max_comparisons`) exactly as the C walk accumulates them. -/
def hash_efficiency : HTree → Nat × Nat × Nat
  | .node _ _ _ slots =>
    ((effSlots slots).1, (effSlots slots).2.1, (effSlots slots).2.2 + 1)
/-- Accumulation over the slot array of one node. -/
def effSlots : List HSlot → Nat × Nat × Nat
  | [] => (0, 0, 0)
  | s :: rest => effCombine (effSlot s) (effSlots rest)
/-- Per-slot contribution: every slot bumps `total_slots`; an empty slot bumps
`total_empty_slots`; a branch adds its child's counters and depth. -/
def effSlot : HSlot → Nat × Nat × Nat
  | .empty => (1, 1, 0)
  | .leaf _ _ _ => (1, 0, 0)
  | .branch _ child =>
    ((hash_efficiency child).1 + 1, (hash_efficiency child).2.1,
      (hash_efficiency child).2.2)
end

/-- `hash_table_efficiency`: the printed percentage
`slots_used * 100 / (slots_used + empty_slots)` and `max_comparisons`. -/
def hash_table_efficiency (t : HTree) : Nat × Nat :=
  ((hash_efficiency t).1 * 100 / ((hash_efficiency t).1 + (hash_efficiency t).2.1),
    (hash_efficiency t).2.2)

mutual
/-- Longest root-to-leaf chain of nodes of a tree. -/
def depth : HTree → Nat
  | .node _ _ _ slots => depthSlots slots + 1
/-- Longest chain among a list of slots. -/
def depthSlots : List HSlot → Nat
  | [] => 0
  | s :: rest => max (depthSlot s) (depthSlots rest)
/-- Longest chain below one slot (0 unless it is a branch). -/
def depthSlot : HSlot → Nat
  | .empty => 0
  | .leaf _ _ _ => 0
  | .branch _ child => depth child
end

mutual
/-- Number of occupied (leaf or branch) slots in the whole tree. -/
def occupiedSlots : HTree → Nat
  | .node _ _ _ slots => occupiedSlotsL slots
/-- Occupied-slot count of a slot list. -/
def occupiedSlotsL : List HSlot → Nat
  | [] => 0
  | s :: rest => occupiedSlotsS s + occupiedSlotsL rest
/-- Occupied-slot contribution of one slot. -/
def occupiedSlotsS : HSlot → Nat
  | .empty => 0
  | .leaf _ _ _ => 1
  | .branch _ child => 1 + occupiedSlots child
end

mutual
/-- Number of empty slots in the whole tree. -/
def emptySlots : HTree → Nat
  | .node _ _ _ slots => emptySlotsL slots
/-- Empty-slot count of a slot list. -/
def emptySlotsL : List HSlot → Nat
  | [] => 0
  | s :: rest => emptySlotsS s + emptySlotsL rest
/-- Empty-slot contribution of one slot. -/
def emptySlotsS : HSlot → Nat
  | .empty => 1
  | .leaf _ _ _ => 0
  | .branch _ child => emptySlots child
end

mutual
/-- Total number of slots (occupied and empty) in the whole tree. -/
def totalSlots : HTree → Nat
  | .node _ _ _ slots => totalSlotsL slots
/-- Total-slot count of a slot list. -/
def totalSlotsL : List HSlot → Nat
  | [] => 0
  | s :: rest => totalSlotsS s + totalSlotsL rest
/-- Total-slot contribution of one slot. -/
def totalSlotsS : HSlot → Nat
  | .empty => 1
  | .leaf _ _ _ => 1
  | .branch _ child => 1 + totalSlots child
end

/-- The single node built by `create_character_hash`:
prime, zero-based slot count, and slots as (character, count, payload). -/
structure CharNode where
  prime : Nat
  num_slots : Nat
  slots : List (Nat × Nat × Nat)

/-- The clamping pass of `create_character_hash`: counts above 1 (duplicate
input bytes) are reset to 1; payloads start at zero. -/
def clampCount (e : Nat × Nat) : Nat × Nat × Nat :=
  (e.1, if 1 < e.2 then 1 else e.2, 0)

/-- The payload pass of `create_character_hash`: for each input byte in
order, find its slot and (when the slot is a matching singleton) overwrite
the payload, so later occurrences win. -/
def setPayloads (a m : Nat) : List (Nat × Nat) → List (Nat × Nat × Nat) → List (Nat × Nat × Nat)
  | [], slots => slots
  | cp :: rest, slots =>
    let s := hash_function cp.1 a m
    match slots[s]? with
    | some e =>
      if e.2.1 = 1 ∧ e.1 = cp.1
      then setPayloads a m rest (slots.set s (e.1, e.2.1, cp.2))
      else setPayloads a m rest slots
    | none => setPayloads a m rest slots

/-- `create_character_hash`: one node, no recursion; duplicate bytes are
coalesced by the clamping pass rather than signalled. -/
def create_character_hash (chars payloads : List Nat) : CharNode :=
  let fb := find_best_hash chars (max_occurrence chars) (unique_chars chars)
  ⟨fb.1, fb.2.1, setPayloads fb.1 fb.2.1 (chars.zip payloads) (fb.2.2.map clampCount)⟩

/-- `lookup_character`: hash the byte and require an occupied slot with a
matching character. -/
def lookup_character (character : Nat) (node : CharNode) : Option Nat :=
  match node.slots[hash_function character node.prime node.num_slots]? with
  | some e => if 0 < e.2.1 ∧ e.1 = character then some e.2.2 else none
  | none => none

/-- The C gathering loop for a slot with `count >= 2` indexes
`values[j].binary[node->column]` for every `j` with no length guard.  This
predicate holds exactly when, at the root node the builder constructs, that
loop performs at least one read past the end of a key: some slot has count at
least 2 (so the loop runs over all keys) while some key is shorter than
`column + 1` bytes. -/
def gather_reads_out_of_bounds (pairs : List (List Nat × Nat)) : Bool :=
  let values := pairs.map Prod.fst
  let sv := survey values
  let fb := find_best_hash (columnChars values sv.1) sv.2.1 sv.2.2
  (fb.2.2.any (fun e => 1 < e.2)) && (values.any (fun k => k.length ≤ sv.1))

/-- Two keys are padded-equal when their virtually 0x00-padded byte streams
agree at every column; such keys are indistinguishable to the column survey. -/
def PadEq (k k' : List Nat) : Prop := ∀ c, padByte k c = padByte k' c

/-- A key set disagrees at column `c` when two of its keys present different
padded bytes there. -/
def disagreesAt (values : List (List Nat)) (c : Nat) : Prop :=
  ∃ k1 ∈ values, ∃ k2 ∈ values, padByte k1 c ≠ padByte k2 c

instance (values : List (List Nat)) (c : Nat) : Decidable (disagreesAt values c) := by
  unfold disagreesAt
  infer_instance

/-- The number of surveyed columns at which the key set disagrees; root-to-leaf
chains of a built tree use pairwise distinct columns from this set. -/
def disagreeCard (values : List (List Nat)) : Nat :=
  ((Finset.range (maxLen values + 1)).filter
    (fun c => disagreesAt values c)).card

/-! ### Generic list facts -/

lemma mem_le_foldr_max {a : Nat} : ∀ {l : List Nat}, a ∈ l → a ≤ l.foldr max 0
  | x :: rest, h => by
    rcases List.mem_cons.mp h with rfl | h'
    · exact Nat.le_max_left _ _
    · exact le_trans (mem_le_foldr_max h') (Nat.le_max_right _ _)

lemma foldr_max_le {B : Nat} : ∀ {l : List Nat}, (∀ a ∈ l, a ≤ B) → l.foldr max 0 ≤ B
  | [], _ => Nat.zero_le B
  | x :: rest, h => by
    simp only [List.foldr_cons]
    exact max_le (h x (List.mem_cons_self x rest))
      (foldr_max_le fun a ha => h a (List.mem_cons_of_mem x ha))

lemma nodup_all_eq_length_le_one {l : List Nat} {c0 : Nat} (hnd : l.Nodup)
    (h : ∀ x ∈ l, x = c0) : l.length ≤ 1 := by
  cases l with
  | nil => simp
  | cons x rest =>
    cases rest with
    | nil => simp
    | cons y rest2 =>
      exfalso
      have hx : x = c0 := h x (by simp)
      have hy : y = c0 := h y (by simp)
      rcases List.nodup_cons.mp hnd with ⟨hxm, _⟩
      exact hxm (by simp [hx, hy])

lemma count_map_eq_countP {α : Type} (f : α → Nat) (l : List α) (b : Nat) :
    (l.map f).count b = l.countP (fun x => f x == b) := by
  induction l with
  | nil => rfl
  | cons x rest ih =>
    simp [List.map_cons, List.count_cons, List.countP_cons, ih]

lemma countP_eq_one_unique {α : Type} {p : α → Bool} {l : List α} {x y : α}
    (h1 : l.countP p = 1) (hx : x ∈ l) (hpx : p x) (hy : y ∈ l) (hpy : p y) :
    x = y := by
  have hfl : (l.filter p).length = 1 := by
    rw [← List.countP_eq_length_filter]; exact h1
  rcases List.length_eq_one.mp hfl with ⟨z, hz⟩
  have hxz : x = z := by
    have : x ∈ l.filter p := List.mem_filter.mpr ⟨hx, hpx⟩
    simpa [hz] using this
  have hyz : y = z := by
    have : y ∈ l.filter p := List.mem_filter.mpr ⟨hy, hpy⟩
    simpa [hz] using this
  rw [hxz, hyz]

lemma countP_lt_length_of_not {α : Type} {p : α → Bool} {l : List α} {x : α}
    (hx : x ∈ l) (hpx : ¬ p x) : l.countP p < l.length := by
  rcases Nat.lt_or_ge (l.countP p) l.length with h | h
  · exact h
  · exfalso
    have heq : l.countP p = l.length := le_antisymm (List.countP_le_length p) h
    exact hpx (List.countP_eq_length.mp heq x hx)

lemma optMap_eq_none_of_mem {α β : Type} {f : α → Option β} :
    ∀ {l : List α} {x : α}, x ∈ l → f x = none → optMap f l = none := by
  intro l
  induction l with
  | nil => intro x hx; exact absurd hx (List.not_mem_nil x)
  | cons y rest ih =>
    intro x hx hfx
    rcases List.mem_cons.mp hx with rfl | hx'
    · simp [optMap, hfx]
    · simp only [optMap]
      cases hfy : f y with
      | none => rfl
      | some v => rw [ih hx' hfx]

lemma optMap_some_forall₂ {α β : Type} {f : α → Option β} :
    ∀ {l : List α} {ys : List β}, optMap f l = some ys →
      List.Forall₂ (fun x y => f x = some y) l ys := by
  intro l
  induction l with
  | nil =>
    intro ys h
    simp only [optMap, Option.some_inj] at h
    rw [← h]; exact List.Forall₂.nil
  | cons x rest ih =>
    intro ys h
    simp only [optMap] at h
    cases hfx : f x with
    | none => rw [hfx] at h; exact absurd h (by simp)
    | some v =>
      rw [hfx] at h
      cases hrest : optMap f rest with
      | none => rw [hrest] at h; exact absurd h (by simp)
      | some vs =>
        rw [hrest] at h
        simp only [Option.some_inj] at h
        rw [← h]
        exact List.Forall₂.cons hfx (ih hrest)

lemma optMap_isSome_of_forall {α β : Type} {f : α → Option β} :
    ∀ {l : List α}, (∀ x ∈ l, (f x).isSome) → ∃ ys, optMap f l = some ys := by
  intro l
  induction l with
  | nil => intro _; exact ⟨[], rfl⟩
  | cons x rest ih =>
    intro h
    rcases Option.isSome_iff_exists.mp (h x (List.mem_cons_self x rest)) with ⟨v, hv⟩
    rcases ih (fun y hy => h y (List.mem_cons_of_mem x hy)) with ⟨vs, hvs⟩
    exact ⟨v :: vs, by simp [optMap, hv, hvs]⟩

lemma forall₂_mem_right {α β : Type} {R : α → β → Prop} :
    ∀ {l : List α} {ys : List β}, List.Forall₂ R l ys → ∀ y ∈ ys, ∃ x ∈ l, R x y := by
  intro l ys h
  induction h with
  | nil => intro y hy; exact absurd hy (List.not_mem_nil y)
  | cons hR _ ih =>
    intro y hy
    rcases List.mem_cons.mp hy with rfl | hy'
    · exact ⟨_, List.mem_cons_self _ _, hR⟩
    · rcases ih y hy' with ⟨x, hx, hRx⟩
      exact ⟨x, List.mem_cons_of_mem _ hx, hRx⟩

lemma forall₂_get {α β : Type} {R : α → β → Prop} :
    ∀ {l : List α} {ys : List β}, List.Forall₂ R l ys →
      ∀ i (h1 : i < l.length) (h2 : i < ys.length), R (l.get ⟨i, h1⟩) (ys.get ⟨i, h2⟩) := by
  intro l ys h
  induction h with
  | nil => intro i h1 _; exact absurd h1 (by simp)
  | cons hR htail ih =>
    intro i h1 h2
    match i with
    | 0 => exact hR
    | n + 1 => exact ih n (by simpa using h1) (by simpa using h2)

/-! ### Distribution facts (`calculate_character_distribution`) -/

lemma count_le_max_occurrence {chars : List Nat} {c : Nat} (hc : c < 256) :
    chars.count c ≤ max_occurrence chars :=
  mem_le_foldr_max (List.mem_map_of_mem _ (List.mem_range.mpr hc))

lemma max_occurrence_le_length (chars : List Nat) :
    max_occurrence chars ≤ chars.length := by
  apply foldr_max_le
  intro a ha
  rcases List.mem_map.mp ha with ⟨c, _, rfl⟩
  exact List.count_le_length c chars

lemma unique_chars_eq_one_iff {chars : List Nat} (hne : chars ≠ [])
    (hb : ∀ b ∈ chars, b < 256) :
    unique_chars chars = 1 ↔ ∀ x ∈ chars, ∀ y ∈ chars, x = y := by
  constructor
  · intro h1 x hx y hy
    rcases List.length_eq_one.mp h1 with ⟨c0, hc0⟩
    have hmemf : ∀ z ∈ chars, z ∈ (List.range 256).filter (fun c => chars.count c != 0) := by
      intro z hz
      have hpos := List.count_pos_iff.mpr hz
      refine List.mem_filter.mpr ⟨List.mem_range.mpr (hb z hz), ?_⟩
      simp only [bne_iff_ne, ne_eq]
      omega
    have hx0 : x = c0 := by have := hmemf x hx; rw [hc0] at this; simpa using this
    have hy0 : y = c0 := by have := hmemf y hy; rw [hc0] at this; simpa using this
    rw [hx0, hy0]
  · intro hall
    rcases List.exists_mem_of_ne_nil chars hne with ⟨c0, hc0⟩
    have hsub : ∀ z ∈ (List.range 256).filter (fun c => chars.count c != 0), z = c0 := by
      intro z hz
      rcases List.mem_filter.mp hz with ⟨_, hcnt⟩
      have hzm : z ∈ chars := by
        rcases Nat.eq_zero_or_pos (chars.count z) with h0 | hpos
        · simp [h0] at hcnt
        · exact List.count_pos_iff.mp hpos
      exact hall z hzm c0 hc0
    have hmem : c0 ∈ (List.range 256).filter (fun c => chars.count c != 0) := by
      have hpos := List.count_pos_iff.mpr hc0
      refine List.mem_filter.mpr ⟨List.mem_range.mpr (hb c0 hc0), ?_⟩
      simp only [bne_iff_ne, ne_eq]
      omega
    have hle := nodup_all_eq_length_le_one (List.Nodup.filter _ (List.nodup_range 256)) hsub
    have hge : 1 ≤ ((List.range 256).filter (fun c => chars.count c != 0)).length :=
      List.length_pos.mpr (List.ne_nil_of_mem hmem)
    exact le_antisymm hle hge

lemma max_occurrence_lt_of_two {chars : List Nat} {x y : Nat}
    (hx : x ∈ chars) (hy : y ∈ chars) (hxy : x ≠ y) :
    max_occurrence chars < chars.length := by
  have hlen : 1 ≤ chars.length := List.length_pos.mpr (List.ne_nil_of_mem hx)
  have hbound : max_occurrence chars ≤ chars.length - 1 := by
    apply foldr_max_le
    intro a ha
    rcases List.mem_map.mp ha with ⟨c, _, rfl⟩
    have hlt : chars.count c ≠ chars.length := by
      intro hc
      have := List.count_eq_length.mp hc
      exact hxy ((this x hx).symm.trans (this y hy))
    have := List.count_le_length c chars
    omega
  omega

lemma max_occurrence_eq_length_of_unique_one {chars : List Nat} (hne : chars ≠ [])
    (hb : ∀ b ∈ chars, b < 256) (hu : unique_chars chars = 1) :
    max_occurrence chars = chars.length := by
  have hall := (unique_chars_eq_one_iff hne hb).mp hu
  rcases List.exists_mem_of_ne_nil chars hne with ⟨c0, hc0⟩
  have hcnt : chars.count c0 = chars.length :=
    List.count_eq_length.mpr (fun b hb' => (hall c0 hc0 b hb'))
  exact le_antisymm (max_occurrence_le_length chars)
    (hcnt ▸ count_le_max_occurrence (hb c0 hc0))

lemma exists_two_of_unique_ne_one {chars : List Nat} (hne : chars ≠ [])
    (hb : ∀ b ∈ chars, b < 256) (hu : unique_chars chars ≠ 1) :
    ∃ x ∈ chars, ∃ y ∈ chars, x ≠ y := by
  by_contra hcon
  push_neg at hcon
  exact hu ((unique_chars_eq_one_iff hne hb).mpr hcon)

/-! ### Routing-simulation invariant (inner loop of `find_best_hash`) -/

/-- Invariant of the slot table after routing `processed`: every processed
character sits in its hash slot with its exact multiplicity, and slots hit by
no processed character still hold `(0, 0)`. -/
def RInv (a m : Nat) (processed : List Nat) (tbl : Nat → Nat × Nat) : Prop :=
  (∀ c ∈ processed,
    (tbl (hash_function c a m)).1 = c ∧
    (tbl (hash_function c a m)).2 = processed.count c) ∧
  ∀ s, (∀ c ∈ processed, hash_function c a m ≠ s) → tbl s = (0, 0)

lemma rinv_nil (a m : Nat) : RInv a m [] (fun _ => (0, 0)) :=
  ⟨fun c hc => absurd hc (List.not_mem_nil c), fun _ _ => rfl⟩

lemma rinv_step_new {a m : Nat} {processed : List Nat} {tbl : Nat → Nat × Nat} {c : Nat}
    (hinv : RInv a m processed tbl) (h0 : (tbl (hash_function c a m)).2 = 0) :
    RInv a m (processed ++ [c]) (updTbl tbl (hash_function c a m) (c, 1)) := by
  obtain ⟨hchar, hempty⟩ := hinv
  have hnotmem : ∀ c' ∈ processed, hash_function c' a m ≠ hash_function c a m := by
    intro c' hc' heq
    have h2 := (hchar c' hc').2
    rw [heq] at h2
    have hcountpos := List.count_pos_iff.mpr hc'
    omega
  have hcnot : c ∉ processed := fun hc => (hnotmem c hc) rfl
  constructor
  · intro x hx
    rcases List.mem_append.mp hx with hx' | hx'
    · have hne := hnotmem x hx'
      have hxc : x ≠ c := fun h => hcnot (h ▸ hx')
      constructor
      · simp only [updTbl, if_neg hne]
        exact (hchar x hx').1
      · simp only [updTbl, if_neg hne]
        rw [List.count_append]
        have : [c].count x = 0 := by simp [List.count_singleton, hxc.symm]
        rw [this, Nat.add_zero]
        exact (hchar x hx').2
    · have hx'' : x = c := by simpa using hx'
      subst hx''
      constructor
      · simp [updTbl]
      · simp only [updTbl, if_pos rfl]
        rw [List.count_append]
        have hc0 : processed.count x = 0 := List.count_eq_zero.mpr hcnot
        simp [hc0]
  · intro s hs
    have hsne : hash_function c a m ≠ s :=
      hs c (List.mem_append.mpr (Or.inr (by simp)))
    simp only [updTbl, if_neg (fun h : s = hash_function c a m => hsne h.symm)]
    exact hempty s (fun x hx => hs x (List.mem_append.mpr (Or.inl hx)))

lemma rinv_mem_of_occupied {a m : Nat} {processed : List Nat} {tbl : Nat → Nat × Nat} {c : Nat}
    (hinv : RInv a m processed tbl)
    (h0 : (tbl (hash_function c a m)).2 ≠ 0)
    (h1 : (tbl (hash_function c a m)).1 = c) :
    c ∈ processed := by
  obtain ⟨hchar, hempty⟩ := hinv
  by_contra hc
  rcases Classical.em (∀ x ∈ processed, hash_function x a m ≠ hash_function c a m)
    with hall | hnall
  · have := hempty _ hall
    rw [this] at h0
    exact h0 rfl
  · push_neg at hnall
    rcases hnall with ⟨x, hx, heq⟩
    have := (hchar x hx).1
    rw [heq, h1] at this
    exact hc (this ▸ hx)

lemma rinv_step_dup {a m : Nat} {processed : List Nat} {tbl : Nat → Nat × Nat} {c : Nat}
    (hinv : RInv a m processed tbl)
    (h0 : (tbl (hash_function c a m)).2 ≠ 0)
    (h1 : (tbl (hash_function c a m)).1 = c) :
    (tbl (hash_function c a m)).2 = processed.count c ∧
    RInv a m (processed ++ [c])
      (updTbl tbl (hash_function c a m) (c, (tbl (hash_function c a m)).2 + 1)) := by
  have hcmem : c ∈ processed := rinv_mem_of_occupied hinv h0 h1
  obtain ⟨hchar, hempty⟩ := hinv
  refine ⟨(hchar c hcmem).2, ?_, ?_⟩
  · intro x hx
    have hxmem : x ∈ processed := by
      rcases List.mem_append.mp hx with hx' | hx'
      · exact hx'
      · have : x = c := by simpa using hx'
        exact this ▸ hcmem
    by_cases heq : hash_function x a m = hash_function c a m
    · have hxc : x = c := by
        have := (hchar x hxmem).1
        rw [heq, h1] at this
        exact this.symm
      subst hxc
      constructor
      · simp [updTbl]
      · simp [updTbl, List.count_append, (hchar x hxmem).2]
    · constructor
      · simp only [updTbl, if_neg heq]
        exact (hchar x hxmem).1
      · simp only [updTbl, if_neg heq]
        have hxc : x ≠ c := fun h => heq (by rw [h])
        rw [List.count_append]
        have : [c].count x = 0 := by simp [List.count_singleton, hxc.symm]
        rw [this, Nat.add_zero]
        exact (hchar x hxmem).2
  · intro s hs
    have hsne : hash_function c a m ≠ s :=
      hs c (List.mem_append.mpr (Or.inr (by simp)))
    simp only [updTbl, if_neg (fun h : s = hash_function c a m => hsne h.symm)]
    exact hempty s (fun x hx => hs x (List.mem_append.mpr (Or.inl hx)))

lemma route_some_spec {a m : Nat} :
    ∀ (rest processed : List Nat) (tbl : Nat → Nat × Nat) (diff : Nat)
      (tblF : Nat → Nat × Nat) (dF : Nat),
      RInv a m processed tbl →
      route a m rest tbl diff = some (tblF, dF) →
      RInv a m (processed ++ rest) tblF ∧ diff ≤ dF ∧
        ∀ B, diff ≤ B →
          (∀ x ∈ processed ++ rest, (processed ++ rest).count x ≤ B) → dF ≤ B := by
  intro rest
  induction rest with
  | nil =>
    intro processed tbl diff tblF dF hinv hroute
    simp only [route, Option.some_inj, Prod.mk.injEq] at hroute
    obtain ⟨h1, h2⟩ := hroute
    subst h1; subst h2
    exact ⟨by simpa using hinv, le_refl _, fun B hB _ => hB⟩
  | cons c rest ih =>
    intro processed tbl diff tblF dF hinv hroute
    simp only [route] at hroute
    have hassoc : (processed ++ [c]) ++ rest = processed ++ c :: rest := by
      rw [List.append_assoc, List.singleton_append]
    by_cases h0 : (tbl (hash_function c a m)).2 = 0
    · rw [if_pos h0] at hroute
      have hstep := rinv_step_new hinv h0
      have := ih (processed ++ [c]) _ diff tblF dF hstep hroute
      rw [hassoc] at this
      exact this
    · rw [if_neg h0] at hroute
      by_cases h1 : (tbl (hash_function c a m)).1 = c
      · rw [if_pos h1] at hroute
        obtain ⟨hcount, hstep⟩ := rinv_step_dup hinv h0 h1
        have hres := ih (processed ++ [c]) _ _ tblF dF hstep hroute
        rw [hassoc] at hres
        obtain ⟨hinvF, hdle, hdB⟩ := hres
        refine ⟨hinvF, ?_, ?_⟩
        · refine le_trans ?_ hdle
          by_cases hch : diff < (tbl (hash_function c a m)).2 + 1
          · rw [if_pos hch]; omega
          · rw [if_neg hch]
        · intro B hdiffB hcounts
          have hcmem : c ∈ processed ++ c :: rest := by simp
          have hcountc := hcounts c hcmem
          have hc1 : (processed ++ [c]).count c = processed.count c + 1 := by
            rw [List.count_append]; simp
          have hc2 : (processed ++ [c]).count c ≤ (processed ++ c :: rest).count c := by
            rw [List.count_append, List.count_append]
            have : ([c] : List Nat).count c ≤ (c :: rest).count c := by
              simp [List.count_cons]
            omega
          apply hdB B
          · by_cases hch : diff < (tbl (hash_function c a m)).2 + 1
            · rw [if_pos hch]
              rw [hcount]
              omega
            · rw [if_neg hch]; exact hdiffB
          · exact hcounts
      · rw [if_neg h1] at hroute
        exact absurd hroute (by simp)

lemma route_id_some (a : Nat) :
    ∀ (rest : List Nat) (tbl : Nat → Nat × Nat) (diff : Nat),
      (∀ s, (tbl s).2 ≠ 0 → (tbl s).1 = s) →
      ∃ out, route a 255 rest tbl diff = some out := by
  intro rest
  induction rest with
  | nil => intro tbl diff _; exact ⟨(tbl, diff), rfl⟩
  | cons c rest ih =>
    intro tbl diff hgood
    have hhash : hash_function c a 255 = c := by simp [hash_function]
    simp only [route, hhash]
    by_cases h0 : (tbl c).2 = 0
    · rw [if_pos h0]
      apply ih
      intro s hs
      by_cases hsc : s = c
      · subst hsc; simp [updTbl]
      · simp only [updTbl, if_neg hsc] at hs ⊢
        exact hgood s hs
    · have h1 : (tbl c).1 = c := hgood c h0
      rw [if_neg h0, if_pos h1]
      apply ih
      intro s hs
      by_cases hsc : s = c
      · subst hsc; simp [updTbl]
      · simp only [updTbl, if_neg hsc] at hs ⊢
        exact hgood s hs

/-! ### The search over (prime, slot-count) candidates -/

/-- A `Best` record produced by a successful routing simulation. -/
def Achieved (chars : List Nat) (bps : Nat) (b : Best) : Prop :=
  route b.a b.m chars (fun _ => (0, 0)) bps = some (b.tbl, b.score)

/-- `Achieved` together with the score bound that keeps updates sound. -/
def AchievedLe (chars : List Nat) (bps : Nat) (b : Best) : Prop :=
  Achieved chars bps b ∧ b.score ≤ chars.length

lemma route_rinv {a m : Nat} {chars : List Nat} {bps : Nat}
    {tbl : Nat → Nat × Nat} {d : Nat}
    (h : route a m chars (fun _ => (0, 0)) bps = some (tbl, d)) :
    RInv a m chars tbl := by
  have := route_some_spec chars [] (fun _ => (0, 0)) bps tbl d (rinv_nil a m) h
  simpa using this.1

lemma route_diff_le {a m : Nat} {chars : List Nat} {bps : Nat}
    {tbl : Nat → Nat × Nat} {d : Nat} (hbps : bps ≤ chars.length)
    (h : route a m chars (fun _ => (0, 0)) bps = some (tbl, d)) :
    bps ≤ d ∧ d ≤ chars.length := by
  have hs := route_some_spec chars [] (fun _ => (0, 0)) bps tbl d (rinv_nil a m) h
  refine ⟨hs.2.1, ?_⟩
  apply hs.2.2 chars.length hbps
  intro x _
  simpa using List.count_le_length x chars

lemma tryPrimes_keep {chars : List Nat} {bps : Nat} (m : Nat) (hbps : bps ≤ chars.length) :
    ∀ (L : List Nat) (b : Best), AchievedLe chars bps b →
      AchievedLe chars bps (tryPrimes chars bps m L b).1 := by
  intro L
  induction L with
  | nil => intro b hb; exact hb
  | cons a L ih =>
    intro b hb
    cases hr : route a m chars (fun _ => (0, 0)) bps with
    | none => simpa only [tryPrimes, hr] using ih b hb
    | some out =>
      obtain ⟨tbl, diff⟩ := out
      have hd := route_diff_le hbps hr
      simp only [tryPrimes, hr]
      have hQ : AchievedLe chars bps (if diff < b.score then (⟨diff, a, m, tbl⟩ : Best) else b) := by
        by_cases hlt : diff < b.score
        · rw [if_pos hlt]; exact ⟨hr, hd.2⟩
        · rw [if_neg hlt]; exact hb
      by_cases hsc : (if diff < b.score then (⟨diff, a, m, tbl⟩ : Best) else b).score = bps
      · rw [if_pos hsc]; exact hQ
      · rw [if_neg hsc]; exact ih _ hQ

lemma tryPrimes_main {chars : List Nat} {bps m : Nat} (hbps : bps ≤ chars.length) :
    ∀ (L : List Nat) (b : Best),
      (b.score = chars.length + 1 ∨ AchievedLe chars bps b) →
      ((tryPrimes chars bps m L b).1.score = chars.length + 1 ∨
         AchievedLe chars bps (tryPrimes chars bps m L b).1) ∧
      ((tryPrimes chars bps m L b).2 = true →
         AchievedLe chars bps (tryPrimes chars bps m L b).1) ∧
      ((∃ a ∈ L, (route a m chars (fun _ => (0, 0)) bps).isSome) →
         AchievedLe chars bps (tryPrimes chars bps m L b).1) := by
  intro L
  induction L with
  | nil =>
    intro b hb
    simp only [tryPrimes]
    exact ⟨hb, by simp, by simp⟩
  | cons a L ih =>
    intro b hb
    cases hr : route a m chars (fun _ => (0, 0)) bps with
    | none =>
      obtain ⟨h1, h2, h3⟩ := ih b hb
      simp only [tryPrimes, hr]
      refine ⟨h1, h2, ?_⟩
      rintro ⟨a', ha', hsome⟩
      rcases List.mem_cons.mp ha' with rfl | ha''
      · rw [hr] at hsome; simp at hsome
      · exact h3 ⟨a', ha'', hsome⟩
    | some out =>
      obtain ⟨tbl, diff⟩ := out
      have hd := route_diff_le hbps hr
      have hQ : AchievedLe chars bps
          (if diff < b.score then (⟨diff, a, m, tbl⟩ : Best) else b) := by
        by_cases hlt : diff < b.score
        · rw [if_pos hlt]; exact ⟨hr, hd.2⟩
        · rw [if_neg hlt]
          rcases hb with hb1 | hb2
          · exfalso; omega
          · exact hb2
      simp only [tryPrimes, hr]
      by_cases hsc : (if diff < b.score then (⟨diff, a, m, tbl⟩ : Best) else b).score = bps
      · rw [if_pos hsc]
        exact ⟨Or.inr hQ, fun _ => hQ, fun _ => hQ⟩
      · rw [if_neg hsc]
        have hkeep := tryPrimes_keep m hbps L _ hQ
        exact ⟨Or.inr hkeep, fun _ => hkeep, fun _ => hkeep⟩

lemma searchSlots_main {chars : List Nat} {bps : Nat} (hbps : bps ≤ chars.length) :
    ∀ (fuel m : Nat) (b : Best),
      (b.score = chars.length + 1 ∨ AchievedLe chars bps b) →
      (m < 255 ∧ 255 ≤ m + fuel ∨ m = 255 ∧ 256 ≤ fuel) →
      AchievedLe chars bps (searchSlots chars bps fuel m b) := by
  intro fuel
  induction fuel with
  | zero => intro m b _ hcond; exfalso; omega
  | succ fuel ih =>
    intro m b hb hcond
    simp only [searchSlots]
    by_cases hm : m = 255
    · subst hm
      have hm' : (255 + 1) % 256 = 0 := by norm_num
      rw [hm']
      obtain ⟨h1, h2, _⟩ := tryPrimes_main hbps primes b hb
      by_cases hfound : (tryPrimes chars bps 0 primes b).2 = true
      · rw [if_pos hfound]; exact h2 hfound
      · rw [if_neg hfound]
        rw [if_pos (show (0:Nat) < 255 by norm_num)]
        exact ih 0 _ h1 (by omega)
    · have hmlt : m < 255 := by omega
      have hm' : (m + 1) % 256 = m + 1 := Nat.mod_eq_of_lt (by omega)
      rw [hm']
      by_cases hm255 : m + 1 = 255
      · rw [hm255]
        have hsucc : ∃ a' ∈ primes, (route a' 255 chars (fun _ => (0, 0)) bps).isSome := by
          refine ⟨2, by simp [primes], ?_⟩
          rcases route_id_some 2 chars (fun _ => (0, 0)) bps
              (fun s h => absurd rfl h) with ⟨out, hout⟩
          exact Option.isSome_iff_exists.mpr ⟨out, hout⟩
        obtain ⟨_, h2, h3⟩ := tryPrimes_main hbps primes b hb
        have hQ := h3 hsucc
        by_cases hfound : (tryPrimes chars bps 255 primes b).2 = true
        · rw [if_pos hfound]; exact hQ
        · rw [if_neg hfound]
          rw [if_neg (show ¬ (255:Nat) < 255 by norm_num)]
          exact hQ
      · obtain ⟨h1, h2, _⟩ := tryPrimes_main hbps primes b hb
        by_cases hfound : (tryPrimes chars bps (m + 1) primes b).2 = true
        · rw [if_pos hfound]; exact h2 hfound
        · rw [if_neg hfound]
          rw [if_pos (show m + 1 < 255 by omega)]
          exact ih (m + 1) _ h1 (by omega)

lemma find_best_hash_spec (chars : List Nat) (bps mu : Nat) (hbps : bps ≤ chars.length) :
    ∃ tbl d,
      route (find_best_hash chars bps mu).1 (find_best_hash chars bps mu).2.1 chars
          (fun _ => (0, 0)) bps = some (tbl, d) ∧
      (find_best_hash chars bps mu).2.2 =
        (List.range ((find_best_hash chars bps mu).2.1 + 1)).map tbl := by
  have hcond : ((mu + 255) % 256 < 255 ∧ 255 ≤ (mu + 255) % 256 + 256) ∨
      ((mu + 255) % 256 = 255 ∧ 256 ≤ 256) := by
    have := Nat.mod_lt (mu + 255) (show 0 < 256 by norm_num)
    omega
  have hach := searchSlots_main hbps 256 ((mu + 255) % 256)
      ⟨chars.length + 1, 0, 0, fun _ => (0, 0)⟩ (Or.inl rfl) hcond
  obtain ⟨hroute, _⟩ := hach
  exact ⟨_, _, hroute, rfl⟩

lemma find_best_hash_rinv (chars : List Nat) (bps mu : Nat) (hbps : bps ≤ chars.length) :
    ∃ tbl, RInv (find_best_hash chars bps mu).1 (find_best_hash chars bps mu).2.1 chars tbl ∧
      (find_best_hash chars bps mu).2.2 =
        (List.range ((find_best_hash chars bps mu).2.1 + 1)).map tbl := by
  obtain ⟨tbl, d, hroute, heq⟩ := find_best_hash_spec chars bps mu hbps
  exact ⟨tbl, route_rinv hroute, heq⟩

/-! ### Hash-kernel range -/

lemma hash_function_le {c a m : Nat} (hc : c < 256) : hash_function c a m ≤ m := by
  unfold hash_function
  by_cases h : m = 255
  · simp [h]; omega
  · simp only [h, if_false]
    exact Nat.lt_succ_iff.mp (Nat.mod_lt _ (Nat.succ_pos m))

/-! ### Column-survey facts -/

lemma columnChars_length (values : List (List Nat)) (c : Nat) :
    (columnChars values c).length = values.length := by
  simp [columnChars]

lemma padByte_lt {k : List Nat} (hb : ∀ b ∈ k, b < 256) (c : Nat) : padByte k c < 256 := by
  unfold padByte
  rcases Nat.lt_or_ge c k.length with h | h
  · rw [List.getD_eq_getElem _ _ h]
    exact hb _ (List.getElem_mem h)
  · rw [List.getD_eq_default _ _ h]
    norm_num

lemma columnChars_lt {values : List (List Nat)}
    (hb : ∀ k ∈ values, ∀ b ∈ k, b < 256) (c : Nat) :
    ∀ x ∈ columnChars values c, x < 256 := by
  intro x hx
  rcases List.mem_map.mp hx with ⟨k, hk, rfl⟩
  exact padByte_lt (hb k hk) c

lemma len_le_maxLen {values : List (List Nat)} {k : List Nat} (hk : k ∈ values) :
    k.length ≤ maxLen values :=
  mem_le_foldr_max (List.mem_map_of_mem _ hk)

lemma surveyStep_foldl (values : List (List Nat)) :
    ∀ (L : List Nat) (acc : Nat × Nat × Nat),
      (L.foldl (surveyStep values) acc).2.1 ≤ acc.2.1 ∧
      (∀ c ∈ L, (L.foldl (surveyStep values) acc).2.1 ≤
        max_occurrence (columnChars values c)) ∧
      ((L.foldl (surveyStep values) acc) = acc ∨
        ∃ c ∈ L, (L.foldl (surveyStep values) acc) =
          (c, max_occurrence (columnChars values c),
            unique_chars (columnChars values c))) := by
  intro L
  induction L with
  | nil => intro acc; exact ⟨le_refl _, by simp, Or.inl rfl⟩
  | cons c L ih =>
    intro acc
    simp only [List.foldl_cons]
    obtain ⟨h1, h2, h3⟩ := ih (surveyStep values acc c)
    have hstep_le : (surveyStep values acc c).2.1 ≤ acc.2.1 := by
      unfold surveyStep
      by_cases h : max_occurrence (columnChars values c) < acc.2.1
      · rw [if_pos h]; exact le_of_lt h
      · rw [if_neg h]
    have hstep_c : (surveyStep values acc c).2.1 ≤ max_occurrence (columnChars values c) := by
      unfold surveyStep
      by_cases h : max_occurrence (columnChars values c) < acc.2.1
      · rw [if_pos h]
      · rw [if_neg h]; omega
    refine ⟨le_trans h1 hstep_le, ?_, ?_⟩
    · intro x hx
      rcases List.mem_cons.mp hx with rfl | hx'
      · exact le_trans h1 hstep_c
      · exact h2 x hx'
    · rcases h3 with heq | ⟨x, hx, heq⟩
      · by_cases h : max_occurrence (columnChars values c) < acc.2.1
        · have hstep : surveyStep values acc c =
              (c, max_occurrence (columnChars values c),
                unique_chars (columnChars values c)) := by
            unfold surveyStep; rw [if_pos h]
          rw [hstep] at heq
          rw [hstep]
          exact Or.inr ⟨c, List.mem_cons_self c L, heq⟩
        · have hstep : surveyStep values acc c = acc := by
            unfold surveyStep; rw [if_neg h]
          rw [hstep] at heq
          rw [hstep]
          exact Or.inl heq
      · exact Or.inr ⟨x, List.mem_cons_of_mem c hx, heq⟩

lemma survey_spec (values : List (List Nat)) :
    (survey values).1 < maxLen values + 1 ∧
    (survey values).2.1 = max_occurrence (columnChars values (survey values).1) ∧
    (survey values).2.2 = unique_chars (columnChars values (survey values).1) ∧
    ∀ c < maxLen values + 1,
      (survey values).2.1 ≤ max_occurrence (columnChars values c) := by
  have hsv : survey values =
      (List.range (maxLen values + 1)).foldl (surveyStep values)
        (0, values.length + 1, 0) := rfl
  obtain ⟨h1, h2, h3⟩ :=
    surveyStep_foldl values (List.range (maxLen values + 1)) (0, values.length + 1, 0)
  have hmin : ∀ c < maxLen values + 1,
      (survey values).2.1 ≤ max_occurrence (columnChars values c) := by
    intro c hc; rw [hsv]; exact h2 c (List.mem_range.mpr hc)
  rcases h3 with heq | ⟨c, hc, heq⟩
  · exfalso
    have h0 : (survey values).2.1 ≤ max_occurrence (columnChars values 0) :=
      hmin 0 (by omega)
    have hlen : max_occurrence (columnChars values 0) ≤ values.length := by
      have := max_occurrence_le_length (columnChars values 0)
      rwa [columnChars_length] at this
    have : (survey values).2.1 = values.length + 1 := by rw [hsv, heq]
    omega
  · rw [hsv, heq]
    exact ⟨List.mem_range.mp hc, rfl, rfl, by rw [← heq, ← hsv]; exact hmin⟩

/-! ### Builder-level bridge facts -/

/-- The best column of the survey, as the builder uses it. -/
def theCol (pairs : List (List Nat × Nat)) : Nat := (survey (pairs.map Prod.fst)).1

/-- The byte image of the best column. -/
def theChars (pairs : List (List Nat × Nat)) : List Nat :=
  columnChars (pairs.map Prod.fst) (theCol pairs)

/-- The node selected by `find_best_hash` for the best column. -/
def theFb (pairs : List (List Nat × Nat)) : Nat × Nat × List (Nat × Nat) :=
  find_best_hash (theChars pairs) (survey (pairs.map Prod.fst)).2.1
    (survey (pairs.map Prod.fst)).2.2

lemma build_fuel_succ (fuel : Nat) (pairs : List (List Nat × Nat)) (hne : pairs ≠ []) :
    create_binary_hash_fuel (fuel + 1) pairs =
      if (survey (pairs.map Prod.fst)).2.2 = 1 ∧ 1 < pairs.length then none
      else
        match optMap (buildSlotWith (create_binary_hash_fuel fuel)
            pairs (theCol pairs)) (theFb pairs).2.2 with
        | some slots =>
          some (HTree.node (theCol pairs) (theFb pairs).1 (theFb pairs).2.1 slots)
        | none => none := by
  have hlen : ¬ pairs.length < 1 := by
    rw [Nat.lt_one_iff, List.length_eq_zero]
    exact hne
  simp only [create_binary_hash_fuel, if_neg hlen]
  rfl

lemma entry_occupied {a m : Nat} {chars : List Nat} {tbl : Nat → Nat × Nat}
    (hinv : RInv a m chars tbl) {s : Nat} (hocc : (tbl s).2 ≠ 0) :
    ∃ c ∈ chars, hash_function c a m = s ∧ tbl s = (c, chars.count c) := by
  rcases Classical.em (∀ c ∈ chars, hash_function c a m ≠ s) with hall | hnall
  · exact absurd (congrArg Prod.snd (hinv.2 s hall)) hocc
  · push_neg at hnall
    rcases hnall with ⟨c, hc, heq⟩
    refine ⟨c, hc, heq, ?_⟩
    have h1 := (hinv.1 c hc).1
    have h2 := (hinv.1 c hc).2
    rw [heq] at h1 h2
    have hsplit : tbl s = ((tbl s).1, (tbl s).2) := rfl
    rw [hsplit, h1, h2]

lemma lookup_binary_node (key : List Nat) (col a m : Nat) (slots : List HSlot) :
    lookup_binary key (HTree.node col a m slots) =
      lookupIdx key (hash_function (padByte key col) a m) slots := rfl

lemma lookupIdx_eq_get {key : List Nat} :
    ∀ {slots : List HSlot} {i : Nat} (hi : i < slots.length),
      lookupIdx key i slots = lookupSlot key (slots.get ⟨i, hi⟩) := by
  intro slots
  induction slots with
  | nil => intro i hi; simp at hi
  | cons s rest ihs =>
    intro i hi
    match i with
    | 0 => rfl
    | n + 1 =>
      simp only [lookupIdx]
      exact ihs (Nat.lt_of_succ_lt_succ (by simpa using hi))

lemma lookupIdx_none {key : List Nat} :
    ∀ {slots : List HSlot} {i : Nat}, slots.length ≤ i → lookupIdx key i slots = none := by
  intro slots
  induction slots with
  | nil => intro i _; cases i <;> rfl
  | cons s rest ihs =>
    intro i hi
    match i with
    | 0 => simp at hi
    | n + 1 =>
      simp only [lookupIdx]
      exact ihs (by simpa using hi)

lemma chars_eq_map (pairs : List (List Nat × Nat)) (col : Nat) :
    columnChars (pairs.map Prod.fst) col = pairs.map (fun p => padByte p.1 col) := by
  simp [columnChars, List.map_map]

lemma count_chars_eq_countP (pairs : List (List Nat × Nat)) (col c : Nat) :
    (columnChars (pairs.map Prod.fst) col).count c
      = pairs.countP (fun p => padByte p.1 col == c) := by
  rw [chars_eq_map, count_map_eq_countP]

lemma mem_chars_exists_pair {pairs : List (List Nat × Nat)} {col c : Nat}
    (hc : c ∈ columnChars (pairs.map Prod.fst) col) :
    ∃ p ∈ pairs, padByte p.1 col = c := by
  rw [chars_eq_map] at hc
  rcases List.mem_map.mp hc with ⟨p, hp, he⟩
  exact ⟨p, hp, he⟩

lemma group_length (pairs : List (List Nat × Nat)) (col c : Nat) :
    (pairs.filter (fun p => padByte p.1 col == c)).length
      = (columnChars (pairs.map Prod.fst) col).count c := by
  rw [count_chars_eq_countP, List.countP_eq_length_filter]

lemma survey_unique_ne_one {pairs : List (List Nat × Nat)}
    (hb : ∀ p ∈ pairs, ∀ b ∈ p.1, b < 256) (h2 : 2 ≤ pairs.length)
    (hdist : pairs.Pairwise (fun p q => ¬ PadEq p.1 q.1)) :
    (survey (pairs.map Prod.fst)).2.2 ≠ 1 := by
  obtain ⟨p0, t, rfl⟩ : ∃ p0 t, pairs = p0 :: t := by
    cases pairs with
    | nil => simp at h2
    | cons p0 t => exact ⟨p0, t, rfl⟩
  obtain ⟨p1, t2, rfl⟩ : ∃ p1 t2, t = p1 :: t2 := by
    cases t with
    | nil => simp at h2
    | cons p1 t2 => exact ⟨p1, t2, rfl⟩
  intro hu1
  obtain ⟨hcol_lt, hmult, huniq, hmin⟩ := survey_spec ((p0 :: p1 :: t2).map Prod.fst)
  have hnpe : ¬ PadEq p0.1 p1.1 :=
    (List.pairwise_cons.mp hdist).1 p1 (List.mem_cons_self p1 t2)
  unfold PadEq at hnpe
  push_neg at hnpe
  obtain ⟨cd, hcd⟩ := hnpe
  have hmem0 : p0.1 ∈ (p0 :: p1 :: t2).map Prod.fst := by simp
  have hmem1 : p1.1 ∈ (p0 :: p1 :: t2).map Prod.fst := by simp
  have hcd_lt : cd < maxLen ((p0 :: p1 :: t2).map Prod.fst) + 1 := by
    by_contra hge
    push_neg at hge
    have hl0 : p0.1.length ≤ maxLen ((p0 :: p1 :: t2).map Prod.fst) := len_le_maxLen hmem0
    have hl1 : p1.1.length ≤ maxLen ((p0 :: p1 :: t2).map Prod.fst) := len_le_maxLen hmem1
    have h00 : padByte p0.1 cd = 0 := by
      unfold padByte; exact List.getD_eq_default _ _ (by omega)
    have h01 : padByte p1.1 cd = 0 := by
      unfold padByte; exact List.getD_eq_default _ _ (by omega)
    exact hcd (h00.trans h01.symm)
  have hx : padByte p0.1 cd ∈ columnChars ((p0 :: p1 :: t2).map Prod.fst) cd :=
    List.mem_map_of_mem _ hmem0
  have hy : padByte p1.1 cd ∈ columnChars ((p0 :: p1 :: t2).map Prod.fst) cd :=
    List.mem_map_of_mem _ hmem1
  have hmlt := max_occurrence_lt_of_two hx hy hcd
  rw [columnChars_length] at hmlt
  have hminlt := lt_of_le_of_lt (hmin cd hcd_lt) hmlt
  have hcne : columnChars ((p0 :: p1 :: t2).map Prod.fst)
      (survey ((p0 :: p1 :: t2).map Prod.fst)).1 ≠ [] := by
    intro h
    have hl := columnChars_length ((p0 :: p1 :: t2).map Prod.fst)
      (survey ((p0 :: p1 :: t2).map Prod.fst)).1
    rw [h] at hl
    simp at hl
  have hcb : ∀ x ∈ columnChars ((p0 :: p1 :: t2).map Prod.fst)
      (survey ((p0 :: p1 :: t2).map Prod.fst)).1, x < 256 := by
    apply columnChars_lt
    intro k hk
    rcases List.mem_map.mp hk with ⟨p, hp, rfl⟩
    exact hb p hp
  have heq := max_occurrence_eq_length_of_unique_one hcne hcb (by rw [← huniq]; exact hu1)
  rw [hmult, heq, columnChars_length] at hminlt
  omega

lemma group_length_lt {pairs : List (List Nat × Nat)} (c : Nat)
    (hb : ∀ p ∈ pairs, ∀ b ∈ p.1, b < 256) (hne : pairs ≠ [])
    (hu : (survey (pairs.map Prod.fst)).2.2 ≠ 1) :
    (pairs.filter (fun p => padByte p.1 (theCol pairs) == c)).length < pairs.length := by
  obtain ⟨_, _, huniq, _⟩ := survey_spec (pairs.map Prod.fst)
  have hcne : theChars pairs ≠ [] := by
    intro h
    have hl := columnChars_length (pairs.map Prod.fst) (theCol pairs)
    rw [show columnChars (pairs.map Prod.fst) (theCol pairs) = theChars pairs from rfl, h] at hl
    simp only [List.length_nil, List.length_map] at hl
    exact hne (List.length_eq_zero.mp hl.symm)
  have hcb : ∀ x ∈ theChars pairs, x < 256 := by
    apply columnChars_lt
    intro k hk
    rcases List.mem_map.mp hk with ⟨p, hp, rfl⟩
    exact hb p hp
  have hu' : unique_chars (theChars pairs) ≠ 1 := by
    unfold theChars theCol
    rw [← huniq]
    exact hu
  obtain ⟨x, hx, y, hy, hxy⟩ := exists_two_of_unique_ne_one hcne hcb hu'
  have hd : ∃ d ∈ theChars pairs, d ≠ c := by
    by_cases hxc : x = c
    · exact ⟨y, hy, fun h => hxy (hxc.trans h.symm)⟩
    · exact ⟨x, hx, hxc⟩
  obtain ⟨d, hdm, hdc⟩ := hd
  obtain ⟨q, hq, hqd⟩ := mem_chars_exists_pair hdm
  have hnp : ¬ ((fun p : List Nat × Nat => padByte p.1 (theCol pairs) == c) q = true) := by
    show ¬ ((padByte q.1 (theCol pairs) == c) = true)
    rw [hqd]
    simp [hdc]
  have hlt := countP_lt_length_of_not
    (p := fun p : List Nat × Nat => padByte p.1 (theCol pairs) == c) hq hnp
  rwa [List.countP_eq_length_filter] at hlt

lemma node_context {pairs : List (List Nat × Nat)} (_hne : pairs ≠ [])
    (hb : ∀ p ∈ pairs, ∀ b ∈ p.1, b < 256) :
    (∀ x ∈ theChars pairs, x < 256) ∧
    (theChars pairs).length = pairs.length ∧
    (survey (pairs.map Prod.fst)).2.1 = max_occurrence (theChars pairs) ∧
    (survey (pairs.map Prod.fst)).2.2 = unique_chars (theChars pairs) ∧
    ∃ tbl, RInv (theFb pairs).1 (theFb pairs).2.1 (theChars pairs) tbl ∧
      (theFb pairs).2.2 = (List.range ((theFb pairs).2.1 + 1)).map tbl := by
  have hcb : ∀ x ∈ theChars pairs, x < 256 := by
    apply columnChars_lt
    intro k hk
    rcases List.mem_map.mp hk with ⟨p, hp, rfl⟩
    exact hb p hp
  have hclen : (theChars pairs).length = pairs.length := by
    have hl := columnChars_length (pairs.map Prod.fst) (theCol pairs)
    simpa using hl
  obtain ⟨_, hmult, huniq, _⟩ := survey_spec (pairs.map Prod.fst)
  refine ⟨hcb, hclen, hmult, huniq, ?_⟩
  have hbps : (survey (pairs.map Prod.fst)).2.1 ≤ (theChars pairs).length := by
    rw [hmult]; exact max_occurrence_le_length _
  exact find_best_hash_rinv _ _ _ hbps

lemma buildSlotWith_empty {rec : List (List Nat × Nat) → Option HTree}
    {pairs : List (List Nat × Nat)} {col : Nat} {e : Nat × Nat} (h0 : e.2 = 0) :
    buildSlotWith rec pairs col e = some HSlot.empty := by
  unfold buildSlotWith
  rw [if_pos h0]

lemma buildSlotWith_leaf {rec : List (List Nat × Nat) → Option HTree}
    {pairs : List (List Nat × Nat)} {col : Nat} {e : Nat × Nat} (h1 : e.2 = 1) :
    buildSlotWith rec pairs col e =
      match pairs.find? (fun p => padByte p.1 col == e.1) with
      | some p => some (HSlot.leaf e.1 p.1 p.2)
      | none => some (HSlot.leaf e.1 [] 0) := by
  unfold buildSlotWith
  rw [if_neg (by omega), if_pos h1]

lemma buildSlotWith_branch {rec : List (List Nat × Nat) → Option HTree}
    {pairs : List (List Nat × Nat)} {col : Nat} {e : Nat × Nat} (h2 : 2 ≤ e.2) :
    buildSlotWith rec pairs col e =
      match rec (pairs.filter (fun p => padByte p.1 col == e.1)) with
      | some child => some (HSlot.branch e.1 child)
      | none => none := by
  unfold buildSlotWith
  rw [if_neg (by omega), if_neg (by omega)]

lemma build_main :
    ∀ (fuel : Nat) (pairs : List (List Nat × Nat)),
      pairs.length ≤ fuel → pairs ≠ [] →
      (∀ p ∈ pairs, ∀ b ∈ p.1, b < 256) →
      pairs.Pairwise (fun p q => ¬ PadEq p.1 q.1) →
      ∃ t, create_binary_hash_fuel fuel pairs = some t ∧
        (∀ p ∈ pairs, lookup_binary p.1 t = some p.2) ∧
        (∀ q pl, lookup_binary q t = some pl → (q, pl) ∈ pairs) := by
  intro fuel
  induction fuel with
  | zero =>
    intro pairs hlen hne _ _
    exact absurd (List.length_eq_zero.mp (Nat.le_zero.mp hlen)) hne
  | succ fuel ih =>
    intro pairs hlen hne hb hdist
    obtain ⟨hcb, hclen, hmult, huniq, tbl, hinv, hentries⟩ := node_context hne hb
    have hpass : ¬ ((survey (pairs.map Prod.fst)).2.2 = 1 ∧ 1 < pairs.length) := by
      rintro ⟨h1, h2⟩
      exact survey_unique_ne_one hb (by omega) hdist h1
    have hslot_spec : ∀ i, i < (theFb pairs).2.1 + 1 →
        ∃ sl, buildSlotWith (create_binary_hash_fuel fuel) pairs (theCol pairs)
            (tbl i) = some sl ∧
          ((tbl i).2 = 0 → sl = HSlot.empty) ∧
          ((tbl i).2 = 1 → ∃ pp ∈ pairs, padByte pp.1 (theCol pairs) = (tbl i).1 ∧
              sl = HSlot.leaf (tbl i).1 pp.1 pp.2) ∧
          (2 ≤ (tbl i).2 → ∃ child,
              sl = HSlot.branch (tbl i).1 child ∧
              (∀ pp ∈ pairs.filter
                  (fun p => padByte p.1 (theCol pairs) == (tbl i).1),
                lookup_binary pp.1 child = some pp.2) ∧
              (∀ q pl, lookup_binary q child = some pl →
                (q, pl) ∈ pairs.filter
                  (fun p => padByte p.1 (theCol pairs) == (tbl i).1))) := by
      intro i him
      by_cases h0 : (tbl i).2 = 0
      · exact ⟨HSlot.empty, buildSlotWith_empty h0, fun _ => rfl,
          fun h1 => absurd h1 (by omega), fun h2 => absurd h2 (by omega)⟩
      · obtain ⟨c, hcmem, hchash, hceq⟩ := entry_occupied hinv h0
        have hc1 : (tbl i).1 = c := by rw [hceq]
        have hc2 : (tbl i).2 = (theChars pairs).count c := by rw [hceq]
        by_cases hone : (tbl i).2 = 1
        · have hcnt1 : (theChars pairs).count c = 1 := by omega
          have hfind : (pairs.find? (fun p => padByte p.1 (theCol pairs) == (tbl i).1)).isSome := by
            obtain ⟨pp, hpp, hppc⟩ := mem_chars_exists_pair hcmem
            apply List.find?_isSome.mpr
            refine ⟨pp, hpp, ?_⟩
            rw [hc1]
            simp [hppc]
          obtain ⟨pf, hpf⟩ := Option.isSome_iff_exists.mp hfind
          have hpfm : pf ∈ pairs := List.mem_of_find?_eq_some hpf
          have hpfc : padByte pf.1 (theCol pairs) = (tbl i).1 := by
            have hx := List.find?_some hpf
            simpa using hx
          refine ⟨HSlot.leaf (tbl i).1 pf.1 pf.2, ?_,
            fun h => absurd h (by omega), ?_, fun h => absurd h (by omega)⟩
          · rw [buildSlotWith_leaf hone, hpf]
          · intro _
            exact ⟨pf, hpfm, hpfc, rfl⟩
        · have hge2 : 2 ≤ (tbl i).2 := by omega
          have hcnt2 : 2 ≤ (theChars pairs).count c := by omega
          have hglen : (pairs.filter (fun p => padByte p.1 (theCol pairs) == c)).length
              = (theChars pairs).count c := group_length pairs (theCol pairs) c
          have hn2 : 2 ≤ pairs.length := by
            have hcl := List.count_le_length c (theChars pairs)
            omega
          have hu : (survey (pairs.map Prod.fst)).2.2 ≠ 1 := fun h => hpass ⟨h, by omega⟩
          have hlt := group_length_lt c hb hne hu
          have hgne : pairs.filter (fun p => padByte p.1 (theCol pairs) == c) ≠ [] := by
            intro h
            rw [h] at hglen
            simp only [List.length_nil] at hglen
            omega
          have hgb : ∀ p ∈ pairs.filter (fun p => padByte p.1 (theCol pairs) == c),
              ∀ b ∈ p.1, b < 256 :=
            fun p hp => hb p (List.mem_of_mem_filter hp)
          have hgdist : (pairs.filter (fun p => padByte p.1 (theCol pairs) == c)).Pairwise
              (fun p q => ¬ PadEq p.1 q.1) :=
            List.Pairwise.sublist (List.filter_sublist pairs) hdist
          obtain ⟨child, hchild, hcomp, hsound⟩ := ih _ (by omega) hgne hgb hgdist
          refine ⟨HSlot.branch (tbl i).1 child, ?_,
            fun h => absurd h.symm (by omega), fun h => absurd h (by omega), ?_⟩
          · rw [buildSlotWith_branch hge2, hc1, hchild]
          · intro _
            rw [hc1]
            exact ⟨child, rfl, hcomp, hsound⟩
    have hentry_get : ∀ i (hi : i < ((theFb pairs).2.2).length),
        ((theFb pairs).2.2).get ⟨i, hi⟩ = tbl i := by
      intro i hi
      simp [hentries]
    have hentlen : ((theFb pairs).2.2).length = (theFb pairs).2.1 + 1 := by
      rw [hentries]
      simp
    have hall : ∀ e ∈ (theFb pairs).2.2,
        ((buildSlotWith (create_binary_hash_fuel fuel) pairs (theCol pairs)) e).isSome := by
      intro e he
      rw [hentries] at he
      rcases List.mem_map.mp he with ⟨i, hi, rfl⟩
      have him : i < (theFb pairs).2.1 + 1 := by simpa using List.mem_range.mp hi
      obtain ⟨sl, hsl, _⟩ := hslot_spec i him
      simp [hsl]
    obtain ⟨slots, hslots⟩ := optMap_isSome_of_forall hall
    have hf2 := optMap_some_forall₂ hslots
    have hslen : slots.length = (theFb pairs).2.1 + 1 := by
      rw [← hf2.length_eq, hentlen]
    have hget : ∀ i (hi : i < (theFb pairs).2.1 + 1),
        buildSlotWith (create_binary_hash_fuel fuel) pairs (theCol pairs) (tbl i)
          = some (slots.get ⟨i, by omega⟩) := by
      intro i hi
      have hi1 : i < ((theFb pairs).2.2).length := by omega
      have hi2 : i < slots.length := by omega
      have := forall₂_get hf2 i hi1 hi2
      rwa [hentry_get i hi1] at this
    refine ⟨HTree.node (theCol pairs) (theFb pairs).1 (theFb pairs).2.1 slots, ?_, ?_, ?_⟩
    · rw [build_fuel_succ fuel pairs hne, if_neg hpass, hslots]
    · -- every key is found with its payload
      intro p hp
      have hcmem : padByte p.1 (theCol pairs) ∈ theChars pairs := by
        rw [show theChars pairs = pairs.map (fun p => padByte p.1 (theCol pairs)) from
          chars_eq_map pairs (theCol pairs)]
        exact List.mem_map_of_mem _ hp
      have hcc := hinv.1 _ hcmem
      rw [lookup_binary_node]
      set s := hash_function (padByte p.1 (theCol pairs)) (theFb pairs).1 (theFb pairs).2.1
        with hsdef
      have hsm : s < (theFb pairs).2.1 + 1 :=
        Nat.lt_succ_of_le (hash_function_le (padByte_lt (hb p hp) _))
      have hs2 : s < slots.length := by omega
      rw [lookupIdx_eq_get hs2]
      obtain ⟨sl, hbf, h0, h1, h2⟩ := hslot_spec s hsm
      have hsl_eq : slots.get ⟨s, hs2⟩ = sl := by
        have hx := hget s hsm
        rw [hbf] at hx
        exact (Option.some_inj.mp hx).symm
      rw [hsl_eq]
      have hcount_pos : 1 ≤ (theChars pairs).count (padByte p.1 (theCol pairs)) :=
        List.count_pos_iff.mpr hcmem
      rcases Nat.lt_or_ge ((tbl s).2) 2 with hlt2 | hge2
      · -- count must be exactly 1
        have hone : (tbl s).2 = 1 := by
          have hx := hcc.2
          omega
        obtain ⟨pf, hpfm, hpfc, hsl'⟩ := h1 hone
        have hcnt1 : pairs.countP
            (fun q => padByte q.1 (theCol pairs) == padByte p.1 (theCol pairs)) = 1 := by
          have hx := hcc.2
          have he : (theChars pairs).count (padByte p.1 (theCol pairs)) =
              pairs.countP (fun q => padByte q.1 (theCol pairs) == padByte p.1 (theCol pairs)) :=
            count_chars_eq_countP pairs (theCol pairs) _
          omega
        have hpf_eq : pf = p := by
          apply countP_eq_one_unique hcnt1 hpfm ?_ hp ?_
          · rw [hpfc, hcc.1]
            simp
          · simp
        rw [hsl']
        subst hpf_eq
        simp [lookupSlot]
      · obtain ⟨child, hsl', hcomp, _⟩ := h2 hge2
        rw [hsl']
        show lookup_binary p.1 child = some p.2
        apply hcomp
        apply List.mem_filter.mpr
        refine ⟨hp, ?_⟩
        rw [hcc.1]
        simp
    · -- everything found is one of the input pairs
      intro q pl hq
      rw [lookup_binary_node] at hq
      set s := hash_function (padByte q (theCol pairs)) (theFb pairs).1 (theFb pairs).2.1
        with hsdef
      by_cases hsm : s < (theFb pairs).2.1 + 1
      · have hs2 : s < slots.length := by omega
        rw [lookupIdx_eq_get hs2] at hq
        obtain ⟨sl, hbf, h0, h1, h2⟩ := hslot_spec s hsm
        have hsl_eq : slots.get ⟨s, hs2⟩ = sl := by
          have hx := hget s hsm
          rw [hbf] at hx
          exact (Option.some_inj.mp hx).symm
        rw [hsl_eq] at hq
        rcases Nat.eq_zero_or_pos ((tbl s).2) with hz | hpos
        · rw [h0 hz] at hq
          simp [lookupSlot] at hq
        · rcases Nat.lt_or_ge ((tbl s).2) 2 with hlt2 | hge2
          · obtain ⟨pf, hpfm, hpfc, hsl'⟩ := h1 (by omega)
            rw [hsl'] at hq
            simp only [lookupSlot] at hq
            by_cases hqp : q = pf.1
            · rw [if_pos hqp] at hq
              have hpl : pl = pf.2 := (Option.some_inj.mp hq).symm
              rw [hqp, hpl]
              simpa using hpfm
            · rw [if_neg hqp] at hq
              simp at hq
          · obtain ⟨child, hsl', _, hsound⟩ := h2 hge2
            rw [hsl'] at hq
            have hq' : lookup_binary q child = some pl := hq
            exact List.mem_of_mem_filter (hsound q pl hq')
      · rw [lookupIdx_none (show slots.length ≤ _ by omega)] at hq
        simp at hq

lemma count_le_count_map {α : Type} [BEq α] [LawfulBEq α] (f : α → Nat) (l : List α) (x : α) :
    l.count x ≤ (l.map f).count (f x) := by
  induction l with
  | nil => simp
  | cons y rest ih =>
    rw [List.map_cons, List.count_cons, List.count_cons]
    by_cases h : y = x
    · subst h
      simp only [beq_self_eq_true, if_true]
      omega
    · have hxy : ¬ ((y == x) = true) := by
        simp only [beq_iff_eq]
        exact h
      rw [if_neg hxy]
      split <;> omega

lemma count_map_fst_filter_ge (pairs : List (List Nat × Nat))
    (pred : List Nat × Nat → Bool) (k : List Nat)
    (hpred : ∀ p : List Nat × Nat, p.1 = k → pred p = true) :
    (pairs.map Prod.fst).count k ≤ ((pairs.filter pred).map Prod.fst).count k := by
  induction pairs with
  | nil => simp
  | cons p rest ih =>
    by_cases hk : p.1 = k
    · rw [List.filter_cons_of_pos (hpred p hk)]
      rw [List.map_cons, List.map_cons, List.count_cons, List.count_cons]
      omega
    · by_cases hf : pred p = true
      · rw [List.filter_cons_of_pos hf]
        rw [List.map_cons, List.map_cons, List.count_cons, List.count_cons]
        have hne : ¬ ((p.1 == k) = true) := by
          simp only [beq_iff_eq]
          exact hk
        rw [if_neg hne]
        omega
      · rw [List.filter_cons_of_neg (by simpa using hf)]
        rw [List.map_cons, List.count_cons]
        have hne : ¬ ((p.1 == k) = true) := by
          simp only [beq_iff_eq]
          exact hk
        rw [if_neg hne]
        omega

lemma nodup_of_count_le_one {α : Type} [BEq α] [LawfulBEq α] :
    ∀ {l : List α}, (∀ x, l.count x ≤ 1) → l.Nodup := by
  intro l
  induction l with
  | nil => intro _; exact List.nodup_nil
  | cons y rest ih =>
    intro h
    apply List.nodup_cons.mpr
    constructor
    · have hy := h y
      rw [List.count_cons] at hy
      simp only [beq_self_eq_true, if_true] at hy
      exact List.count_eq_zero.mp (by omega)
    · apply ih
      intro x
      have hx := h x
      rw [List.count_cons] at hx
      omega

lemma count_le_one_of_nodup {α : Type} [BEq α] [LawfulBEq α] :
    ∀ {l : List α}, l.Nodup → ∀ x, l.count x ≤ 1 := by
  intro l
  induction l with
  | nil => intro _ x; simp
  | cons y rest ih =>
    intro h x
    rcases List.nodup_cons.mp h with ⟨hy, hrest⟩
    rw [List.count_cons]
    by_cases hxy : (y == x) = true
    · rw [if_pos hxy]
      have hyx : y = x := by simpa using hxy
      have : rest.count x = 0 := List.count_eq_zero.mpr (hyx ▸ hy)
      omega
    · rw [if_neg hxy]
      have := ih hrest x
      omega

lemma build_dup :
    ∀ (fuel : Nat) (pairs : List (List Nat × Nat)),
      (∀ p ∈ pairs, ∀ b ∈ p.1, b < 256) →
      ¬ (pairs.map Prod.fst).Nodup →
      create_binary_hash_fuel fuel pairs = none := by
  intro fuel
  induction fuel with
  | zero => intro pairs _ _; rfl
  | succ fuel ih =>
    intro pairs hb hdup
    have hne : pairs ≠ [] := by
      intro h; subst h; exact hdup (by simp)
    rw [build_fuel_succ fuel pairs hne]
    by_cases hpass : (survey (pairs.map Prod.fst)).2.2 = 1 ∧ 1 < pairs.length
    · rw [if_pos hpass]
    · rw [if_neg hpass]
      obtain ⟨k, hk2⟩ : ∃ k, 2 ≤ (pairs.map Prod.fst).count k := by
        by_contra hno
        push_neg at hno
        exact hdup (nodup_of_count_le_one (fun a => by have := hno a; omega))
      have hkmem : k ∈ pairs.map Prod.fst := by
        apply List.count_pos_iff.mp
        omega
      obtain ⟨hcb, hclen, hmult, huniq, tbl, hinv, hentries⟩ := node_context hne hb
      have hchm : padByte k (theCol pairs) ∈ theChars pairs :=
        List.mem_map_of_mem _ hkmem
      have hcc := hinv.1 _ hchm
      have hcnt2 : 2 ≤ (theChars pairs).count (padByte k (theCol pairs)) := by
        have hle : (pairs.map Prod.fst).count k
            ≤ (theChars pairs).count (padByte k (theCol pairs)) :=
          count_le_count_map (fun kk => padByte kk (theCol pairs)) (pairs.map Prod.fst) k
        omega
      have hkb : ∀ b ∈ k, b < 256 := by
        rcases List.mem_map.mp hkmem with ⟨p, hp, rfl⟩
        exact hb p hp
      have hsm : hash_function (padByte k (theCol pairs)) (theFb pairs).1 (theFb pairs).2.1
          < (theFb pairs).2.1 + 1 :=
        Nat.lt_succ_of_le (hash_function_le (padByte_lt hkb _))
      have hemem : tbl (hash_function (padByte k (theCol pairs))
          (theFb pairs).1 (theFb pairs).2.1) ∈ (theFb pairs).2.2 := by
        rw [hentries]
        exact List.mem_map_of_mem _ (List.mem_range.mpr hsm)
      have hge2 : 2 ≤ (tbl (hash_function (padByte k (theCol pairs))
          (theFb pairs).1 (theFb pairs).2.1)).2 := by
        have hx := hcc.2
        omega
      have hgroup_dup : ¬ (((pairs.filter (fun p => padByte p.1 (theCol pairs) ==
          (tbl (hash_function (padByte k (theCol pairs))
            (theFb pairs).1 (theFb pairs).2.1)).1)).map Prod.fst).Nodup) := by
        intro hnd
        have hle := count_map_fst_filter_ge pairs
          (fun p : List Nat × Nat => padByte p.1 (theCol pairs) ==
            (tbl (hash_function (padByte k (theCol pairs))
              (theFb pairs).1 (theFb pairs).2.1)).1)
          k (fun p hp => by simp [hp, hcc.1])
        have := count_le_one_of_nodup hnd k
        omega
      have hchild := ih (pairs.filter (fun p => padByte p.1 (theCol pairs) ==
          (tbl (hash_function (padByte k (theCol pairs))
            (theFb pairs).1 (theFb pairs).2.1)).1))
        (fun p hp => hb p (List.mem_of_mem_filter hp)) hgroup_dup
      have hbf_none : buildSlotWith (create_binary_hash_fuel fuel) pairs (theCol pairs)
          (tbl (hash_function (padByte k (theCol pairs))
            (theFb pairs).1 (theFb pairs).2.1)) = none := by
        rw [buildSlotWith_branch hge2, hchild]
      rw [optMap_eq_none_of_mem hemem hbf_none]

lemma buildSlotWith_cases {rec : List (List Nat × Nat) → Option HTree}
    {pairs : List (List Nat × Nat)} {col : Nat} {e : Nat × Nat} {sl : HSlot}
    (h : buildSlotWith rec pairs col e = some sl) :
    (e.2 = 0 ∧ sl = HSlot.empty) ∨
    (e.2 = 1 ∧ ∃ ch k p, sl = HSlot.leaf ch k p) ∨
    (2 ≤ e.2 ∧ ∃ child, sl = HSlot.branch e.1 child ∧
      rec (pairs.filter (fun p => padByte p.1 col == e.1)) = some child) := by
  by_cases h0 : e.2 = 0
  · rw [buildSlotWith_empty h0] at h
    exact Or.inl ⟨h0, (Option.some_inj.mp h).symm⟩
  · by_cases h1 : e.2 = 1
    · rw [buildSlotWith_leaf h1] at h
      refine Or.inr (Or.inl ⟨h1, ?_⟩)
      cases hf : pairs.find? (fun p => padByte p.1 col == e.1) with
      | some p => rw [hf] at h; exact ⟨e.1, p.1, p.2, (Option.some_inj.mp h).symm⟩
      | none => rw [hf] at h; exact ⟨e.1, [], 0, (Option.some_inj.mp h).symm⟩
    · have h2 : 2 ≤ e.2 := by omega
      rw [buildSlotWith_branch h2] at h
      refine Or.inr (Or.inr ⟨h2, ?_⟩)
      cases hc : rec (pairs.filter (fun p => padByte p.1 col == e.1)) with
      | some child => rw [hc] at h; exact ⟨child, (Option.some_inj.mp h).symm, rfl⟩
      | none => rw [hc] at h; exact absurd h (by simp)

lemma depthSlots_le {B : Nat} :
    ∀ {slots : List HSlot}, (∀ sl ∈ slots, depthSlot sl ≤ B) → depthSlots slots ≤ B := by
  intro slots
  induction slots with
  | nil => intro _; simp [depthSlots]
  | cons s rest ih =>
    intro h
    simp only [depthSlots]
    exact max_le (h s (List.mem_cons_self s rest))
      (ih fun sl hsl => h sl (List.mem_cons_of_mem s hsl))

lemma disagreeCard_le (values : List (List Nat)) :
    disagreeCard values ≤ maxLen values + 1 := by
  unfold disagreeCard
  calc ((Finset.range (maxLen values + 1)).filter (fun c => disagreesAt values c)).card
      ≤ (Finset.range (maxLen values + 1)).card := Finset.card_filter_le _ _
    _ = maxLen values + 1 := Finset.card_range _

lemma disagreeCard_group_le {pairs : List (List Nat × Nat)} (c : Nat)
    (hdis : disagreesAt (pairs.map Prod.fst) (theCol pairs))
    (hcol_lt : theCol pairs < maxLen (pairs.map Prod.fst) + 1) :
    disagreeCard ((pairs.filter (fun p => padByte p.1 (theCol pairs) == c)).map Prod.fst) + 1
      ≤ disagreeCard (pairs.map Prod.fst) := by
  unfold disagreeCard
  have hsub : (Finset.range (maxLen ((pairs.filter
        (fun p => padByte p.1 (theCol pairs) == c)).map Prod.fst) + 1)).filter
      (fun x => disagreesAt ((pairs.filter
        (fun p => padByte p.1 (theCol pairs) == c)).map Prod.fst) x)
      ⊆ ((Finset.range (maxLen (pairs.map Prod.fst) + 1)).filter
        (fun x => disagreesAt (pairs.map Prod.fst) x)).erase (theCol pairs) := by
    intro x hx
    rcases Finset.mem_filter.mp hx with ⟨hxr, hxd⟩
    apply Finset.mem_erase.mpr
    constructor
    · intro hxcol
      subst hxcol
      obtain ⟨k1, hk1, k2, hk2, hkne⟩ := hxd
      apply hkne
      rcases List.mem_map.mp hk1 with ⟨p1, hp1, rfl⟩
      rcases List.mem_map.mp hk2 with ⟨p2, hp2, rfl⟩
      have e1 : padByte p1.1 (theCol pairs) = c := by
        have hm := List.mem_filter.mp hp1
        simpa using hm.2
      have e2 : padByte p2.1 (theCol pairs) = c := by
        have hm := List.mem_filter.mp hp2
        simpa using hm.2
      rw [e1, e2]
    · apply Finset.mem_filter.mpr
      constructor
      · apply Finset.mem_range.mpr
        have hml : maxLen ((pairs.filter
            (fun p => padByte p.1 (theCol pairs) == c)).map Prod.fst)
            ≤ maxLen (pairs.map Prod.fst) := by
          unfold maxLen
          apply foldr_max_le
          intro l hl
          rcases List.mem_map.mp hl with ⟨k, hk, rfl⟩
          rcases List.mem_map.mp hk with ⟨p, hp, rfl⟩
          exact len_le_maxLen (List.mem_map_of_mem _ (List.mem_of_mem_filter hp))
        have hxx := Finset.mem_range.mp hxr
        omega
      · obtain ⟨k1, hk1, k2, hk2, hkne⟩ := hxd
        refine ⟨k1, ?_, k2, ?_, hkne⟩
        · rcases List.mem_map.mp hk1 with ⟨p1, hp1, rfl⟩
          exact List.mem_map_of_mem _ (List.mem_of_mem_filter hp1)
        · rcases List.mem_map.mp hk2 with ⟨p2, hp2, rfl⟩
          exact List.mem_map_of_mem _ (List.mem_of_mem_filter hp2)
  have hcolmem : theCol pairs ∈ (Finset.range (maxLen (pairs.map Prod.fst) + 1)).filter
      (fun x => disagreesAt (pairs.map Prod.fst) x) :=
    Finset.mem_filter.mpr ⟨Finset.mem_range.mpr hcol_lt, hdis⟩
  have h1 := Finset.card_le_card hsub
  rw [Finset.card_erase_of_mem hcolmem] at h1
  have h2 : 1 ≤ ((Finset.range (maxLen (pairs.map Prod.fst) + 1)).filter
      (fun x => disagreesAt (pairs.map Prod.fst) x)).card :=
    Finset.card_pos.mpr ⟨theCol pairs, hcolmem⟩
  omega

lemma build_depth :
    ∀ (fuel : Nat) (pairs : List (List Nat × Nat)) (t : HTree),
      (∀ p ∈ pairs, ∀ b ∈ p.1, b < 256) →
      create_binary_hash_fuel fuel pairs = some t →
      (2 ≤ pairs.length → depth t ≤ disagreeCard (pairs.map Prod.fst)) ∧
      (pairs.length ≤ 1 → depth t = 1) := by
  intro fuel
  induction fuel with
  | zero =>
    intro pairs t _ h
    exact absurd h (by simp [create_binary_hash_fuel])
  | succ fuel ih =>
    intro pairs t hb hsome
    have hne : pairs ≠ [] := by
      intro h
      subst h
      have hnone : create_binary_hash_fuel (fuel + 1) ([] : List (List Nat × Nat)) = none := rfl
      rw [hnone] at hsome
      exact absurd hsome (by simp)
    rw [build_fuel_succ fuel pairs hne] at hsome
    by_cases hpass : (survey (pairs.map Prod.fst)).2.2 = 1 ∧ 1 < pairs.length
    · rw [if_pos hpass] at hsome
      exact absurd hsome (by simp)
    · rw [if_neg hpass] at hsome
      cases hopt : optMap (buildSlotWith (create_binary_hash_fuel fuel) pairs (theCol pairs))
          (theFb pairs).2.2 with
      | none => rw [hopt] at hsome; exact absurd hsome (by simp)
      | some slots =>
        rw [hopt] at hsome
        have ht : t = HTree.node (theCol pairs) (theFb pairs).1 (theFb pairs).2.1 slots :=
          (Option.some_inj.mp hsome).symm
        subst ht
        obtain ⟨hcb, hclen, hmult, huniq, tbl, hinv, hentries⟩ := node_context hne hb
        have hf2 := optMap_some_forall₂ hopt
        have hdepth_eq : depth (HTree.node (theCol pairs) (theFb pairs).1
            (theFb pairs).2.1 slots) = depthSlots slots + 1 := rfl
        constructor
        · intro hn2
          have hu : (survey (pairs.map Prod.fst)).2.2 ≠ 1 := fun h => hpass ⟨h, by omega⟩
          have hcne : theChars pairs ≠ [] := by
            intro h
            rw [h] at hclen
            simp only [List.length_nil] at hclen
            exact hne (List.length_eq_zero.mp hclen.symm)
          have hu' : unique_chars (theChars pairs) ≠ 1 := by
            unfold theChars theCol
            obtain ⟨_, _, huq, _⟩ := survey_spec (pairs.map Prod.fst)
            rw [← huq]
            exact hu
          obtain ⟨x, hx, y, hy, hxy⟩ := exists_two_of_unique_ne_one hcne hcb hu'
          have hdis : disagreesAt (pairs.map Prod.fst) (theCol pairs) := by
            rcases List.mem_map.mp hx with ⟨k1, hk1, he1⟩
            rcases List.mem_map.mp hy with ⟨k2, hk2, he2⟩
            exact ⟨k1, hk1, k2, hk2, by rw [he1, he2]; exact hxy⟩
          obtain ⟨hcol_range, _, _, _⟩ := survey_spec (pairs.map Prod.fst)
          have hcard1 : 1 ≤ disagreeCard (pairs.map Prod.fst) := by
            unfold disagreeCard
            exact Finset.card_pos.mpr ⟨theCol pairs,
              Finset.mem_filter.mpr ⟨Finset.mem_range.mpr hcol_range, hdis⟩⟩
          rw [hdepth_eq]
          have hslots_le : depthSlots slots ≤ disagreeCard (pairs.map Prod.fst) - 1 := by
            apply depthSlots_le
            intro sl hsl
            obtain ⟨e, he, hbe⟩ := forall₂_mem_right hf2 sl hsl
            rcases buildSlotWith_cases hbe with
              ⟨_, rfl⟩ | ⟨_, ch, k, p, rfl⟩ | ⟨hge2, child, rfl, hchild⟩
            · simp [depthSlot]
            · simp [depthSlot]
            · simp only [depthSlot]
              rw [hentries] at he
              rcases List.mem_map.mp he with ⟨i, hir, rfl⟩
              obtain ⟨c, hcmem, hchash, hceq⟩ :=
                entry_occupied hinv (show (tbl i).2 ≠ 0 by omega)
              have hc1 : (tbl i).1 = c := by rw [hceq]
              have hc2 : (tbl i).2 = (theChars pairs).count c := by rw [hceq]
              have hglen : (pairs.filter
                  (fun p => padByte p.1 (theCol pairs) == (tbl i).1)).length
                  = (theChars pairs).count c := by
                rw [hc1]
                exact group_length pairs (theCol pairs) c
              have h2g : 2 ≤ (pairs.filter
                  (fun p => padByte p.1 (theCol pairs) == (tbl i).1)).length := by omega
              have hgb : ∀ p ∈ pairs.filter
                  (fun p => padByte p.1 (theCol pairs) == (tbl i).1), ∀ b ∈ p.1, b < 256 :=
                fun p hp => hb p (List.mem_of_mem_filter hp)
              have hchd := (ih _ child hgb hchild).1 h2g
              have hle := disagreeCard_group_le ((tbl i).1) hdis hcol_range
              omega
          omega
        · intro hn1
          rw [hdepth_eq]
          have hzero : depthSlots slots ≤ 0 := by
            apply depthSlots_le
            intro sl hsl
            obtain ⟨e, he, hbe⟩ := forall₂_mem_right hf2 sl hsl
            rcases buildSlotWith_cases hbe with
              ⟨_, rfl⟩ | ⟨_, ch, k, p, rfl⟩ | ⟨hge2, child, rfl, hchild⟩
            · simp [depthSlot]
            · simp [depthSlot]
            · exfalso
              rw [hentries] at he
              rcases List.mem_map.mp he with ⟨i, hir, rfl⟩
              obtain ⟨c, hcmem, _, hceq⟩ :=
                entry_occupied hinv (show (tbl i).2 ≠ 0 by omega)
              have hc2 : (tbl i).2 = (theChars pairs).count c := by rw [hceq]
              have hcl := List.count_le_length c (theChars pairs)
              omega
          omega

lemma build_depth_bound {pairs : List (List Nat × Nat)} {t : HTree}
    (hb : ∀ p ∈ pairs, ∀ b ∈ p.1, b < 256)
    (hsome : create_binary_hash pairs = some t) :
    depth t ≤ maxLen (pairs.map Prod.fst) + 1 := by
  have hd := build_depth pairs.length pairs t hb hsome
  rcases Nat.lt_or_ge pairs.length 2 with h1 | h2
  · rw [hd.2 (by omega)]
    omega
  · exact le_trans (hd.1 h2) (disagreeCard_le _)

mutual
theorem hash_eff_tree : ∀ t : HTree, hash_efficiency t = (totalSlots t, emptySlots t, depth t)
  | .node col a m slots => by
    simp only [hash_efficiency, totalSlots, emptySlots, depth]
    rw [hash_eff_slots slots]
theorem hash_eff_slots :
    ∀ slots : List HSlot, effSlots slots = (totalSlotsL slots, emptySlotsL slots, depthSlots slots)
  | [] => rfl
  | s :: rest => by
    simp only [effSlots, totalSlotsL, emptySlotsL, depthSlots]
    rw [hash_eff_slot s, hash_eff_slots rest]
    rfl
theorem hash_eff_slot :
    ∀ sl : HSlot, effSlot sl = (totalSlotsS sl, emptySlotsS sl, depthSlot sl)
  | .empty => rfl
  | .leaf _ _ _ => rfl
  | .branch _ child => by
    simp only [effSlot, totalSlotsS, emptySlotsS, depthSlot]
    rw [hash_eff_tree child]
    simp [Nat.add_comm]
end

/-- The payload of the last occurrence of byte `b` in a list of
(byte, payload) pairs, if any. -/
def lastPayload (b : Nat) : List (Nat × Nat) → Option Nat
  | [] => none
  | cp :: rest =>
    match lastPayload b rest with
    | some p => some p
    | none => if cp.1 = b then some cp.2 else none

lemma lastPayload_cons_eq {b : Nat} {cp : Nat × Nat} {rest : List (Nat × Nat)}
    (h : cp.1 = b) (q0 : Nat) :
    (lastPayload b (cp :: rest)).getD q0 = (lastPayload b rest).getD cp.2 := by
  simp only [lastPayload]
  cases lastPayload b rest with
  | some p => rfl
  | none => simp [h]

lemma lastPayload_cons_ne {b : Nat} {cp : Nat × Nat} {rest : List (Nat × Nat)}
    (h : cp.1 ≠ b) (q0 : Nat) :
    (lastPayload b (cp :: rest)).getD q0 = (lastPayload b rest).getD q0 := by
  simp only [lastPayload]
  cases lastPayload b rest with
  | some p => rfl
  | none => simp [h]

lemma lastPayload_isSome {b : Nat} :
    ∀ {zl : List (Nat × Nat)}, b ∈ zl.map Prod.fst → (lastPayload b zl).isSome := by
  intro zl
  induction zl with
  | nil => intro h; simp at h
  | cons cp rest ih =>
    intro h
    simp only [lastPayload]
    cases hl : lastPayload b rest with
    | some p => rfl
    | none =>
      rcases List.mem_map.mp h with ⟨x, hx, hfx⟩
      rcases List.mem_cons.mp hx with rfl | hx'
      · simp [hfx]
      · have hxm := List.mem_map_of_mem Prod.fst hx'
        rw [hfx] at hxm
        have hrec := ih hxm
        rw [hl] at hrec
        simp at hrec

lemma setPayloads_inv {a m : Nat} {chars : List Nat} {tbl : Nat → Nat × Nat}
    (hinv : RInv a m chars tbl) {b : Nat} (hbm : b ∈ chars) :
    ∀ (zl : List (Nat × Nat)) (slots : List (Nat × Nat × Nat)) (q0 : Nat),
      (∀ cp ∈ zl, cp.1 ∈ chars) →
      slots[hash_function b a m]? = some (b, 1, q0) →
      (setPayloads a m zl slots)[hash_function b a m]? =
        some (b, 1, (lastPayload b zl).getD q0) := by
  intro zl
  induction zl with
  | nil =>
    intro slots q0 _ hs
    simpa [setPayloads, lastPayload] using hs
  | cons cp rest ih =>
    intro slots q0 hmem hs
    simp only [setPayloads]
    by_cases hcpb : cp.1 = b
    · have hsame : hash_function cp.1 a m = hash_function b a m := by rw [hcpb]
      have hlt : hash_function b a m < slots.length := by
        by_contra hge
        push_neg at hge
        rw [List.getElem?_eq_none hge] at hs
        exact absurd hs (by simp)
      have hset : (slots.set (hash_function b a m) (b, 1, cp.2))[hash_function b a m]?
          = some (b, 1, cp.2) :=
        List.getElem?_set_self hlt
      rw [hsame, hs, lastPayload_cons_eq hcpb]
      show (if ((b, 1, q0) : Nat × Nat × Nat).2.1 = 1 ∧ ((b, 1, q0) : Nat × Nat × Nat).1 = cp.1
          then setPayloads a m rest (slots.set (hash_function b a m) (b, 1, cp.2))
          else setPayloads a m rest slots)[hash_function b a m]? =
        some (b, 1, (lastPayload b rest).getD cp.2)
      rw [if_pos (show ((b, 1, q0) : Nat × Nat × Nat).2.1 = 1 ∧
          ((b, 1, q0) : Nat × Nat × Nat).1 = cp.1 from ⟨rfl, hcpb.symm⟩)]
      exact ih _ cp.2 (fun x hx => hmem x (List.mem_cons_of_mem cp hx)) hset
    · have hcpc : cp.1 ∈ chars := hmem cp (List.mem_cons_self cp rest)
      have hne : hash_function cp.1 a m ≠ hash_function b a m := by
        intro he
        have h1 := (hinv.1 cp.1 hcpc).1
        have h2 := (hinv.1 b hbm).1
        rw [he] at h1
        exact hcpb (h1.symm.trans h2)
      rw [lastPayload_cons_ne hcpb]
      cases harm : slots[hash_function cp.1 a m]? with
      | none => exact ih _ q0 (fun x hx => hmem x (List.mem_cons_of_mem cp hx)) hs
      | some e =>
        by_cases hcond : e.2.1 = 1 ∧ e.1 = cp.1
        · show (if e.2.1 = 1 ∧ e.1 = cp.1
              then setPayloads a m rest
                (slots.set (hash_function cp.1 a m) (e.1, e.2.1, cp.2))
              else setPayloads a m rest slots)[hash_function b a m]? =
            some (b, 1, (lastPayload b rest).getD q0)
          rw [if_pos hcond]
          apply ih _ q0 (fun x hx => hmem x (List.mem_cons_of_mem cp hx))
          rw [List.getElem?_set_ne hne]
          exact hs
        · show (if e.2.1 = 1 ∧ e.1 = cp.1
              then setPayloads a m rest
                (slots.set (hash_function cp.1 a m) (e.1, e.2.1, cp.2))
              else setPayloads a m rest slots)[hash_function b a m]? =
            some (b, 1, (lastPayload b rest).getD q0)
          rw [if_neg hcond]
          exact ih _ q0 (fun x hx => hmem x (List.mem_cons_of_mem cp hx)) hs

lemma create_character_hash_spec {chars payloads : List Nat}
    (hlen : payloads.length = chars.length)
    (hcb : ∀ x ∈ chars, x < 256) {b : Nat} (hbm : b ∈ chars) :
    ∃ p, lastPayload b (chars.zip payloads) = some p ∧
      lookup_character b (create_character_hash chars payloads) = some p := by
  have hbps : max_occurrence chars ≤ chars.length := max_occurrence_le_length chars
  obtain ⟨tbl, hinv, hentries⟩ :=
    find_best_hash_rinv chars (max_occurrence chars) (unique_chars chars) hbps
  have hcc := hinv.1 b hbm
  have hsm : hash_function b (find_best_hash chars (max_occurrence chars)
      (unique_chars chars)).1 (find_best_hash chars (max_occurrence chars)
      (unique_chars chars)).2.1
      < (find_best_hash chars (max_occurrence chars) (unique_chars chars)).2.1 + 1 :=
    Nat.lt_succ_of_le (hash_function_le (hcb b hbm))
  have hcount1 : 1 ≤ chars.count b := List.count_pos_iff.mpr hbm
  have hbase : ((find_best_hash chars (max_occurrence chars)
      (unique_chars chars)).2.2.map clampCount)[hash_function b
        (find_best_hash chars (max_occurrence chars) (unique_chars chars)).1
        (find_best_hash chars (max_occurrence chars) (unique_chars chars)).2.1]?
      = some (b, 1, 0) := by
    rw [hentries, List.getElem?_map, List.getElem?_map, List.getElem?_range hsm]
    simp only [Option.map_some']
    have hsplit : tbl (hash_function b (find_best_hash chars (max_occurrence chars)
        (unique_chars chars)).1 (find_best_hash chars (max_occurrence chars)
        (unique_chars chars)).2.1) = (b, chars.count b) := by
      have h1 := hcc.1
      have h2 := hcc.2
      have hx : tbl (hash_function b (find_best_hash chars (max_occurrence chars)
          (unique_chars chars)).1 (find_best_hash chars (max_occurrence chars)
          (unique_chars chars)).2.1)
          = ((tbl (hash_function b (find_best_hash chars (max_occurrence chars)
            (unique_chars chars)).1 (find_best_hash chars (max_occurrence chars)
            (unique_chars chars)).2.1)).1,
            (tbl (hash_function b (find_best_hash chars (max_occurrence chars)
              (unique_chars chars)).1 (find_best_hash chars (max_occurrence chars)
              (unique_chars chars)).2.1)).2) := rfl
      rw [hx, h1, h2]
    rw [hsplit]
    simp only [Option.map_some', clampCount, Option.some_inj]
    rcases Nat.lt_or_ge 1 (chars.count b) with hgt | hle
    · rw [if_pos hgt]
    · have : chars.count b = 1 := by omega
      rw [this]
      simp
  have hfinal := setPayloads_inv hinv hbm (chars.zip payloads)
    ((find_best_hash chars (max_occurrence chars) (unique_chars chars)).2.2.map clampCount)
    0 (fun cp hcp => (List.of_mem_zip hcp).1) hbase
  have hzmem : b ∈ (chars.zip payloads).map Prod.fst := by
    rw [List.map_fst_zip chars payloads (by omega)]
    exact hbm
  obtain ⟨p, hp⟩ := Option.isSome_iff_exists.mp (lastPayload_isSome hzmem)
  refine ⟨p, hp, ?_⟩
  have hlook : lookup_character b (create_character_hash chars payloads) =
      match (setPayloads (find_best_hash chars (max_occurrence chars) (unique_chars chars)).1
          (find_best_hash chars (max_occurrence chars) (unique_chars chars)).2.1
          (chars.zip payloads)
          ((find_best_hash chars (max_occurrence chars)
            (unique_chars chars)).2.2.map clampCount))[hash_function b
          (find_best_hash chars (max_occurrence chars) (unique_chars chars)).1
          (find_best_hash chars (max_occurrence chars) (unique_chars chars)).2.1]? with
      | some e => if 0 < e.2.1 ∧ e.1 = b then some e.2.2 else none
      | none => none := rfl
  rw [hlook, hfinal, hp]
  simp

lemma one_le_unique_chars {chars : List Nat} (hne : chars ≠ [])
    (hcb : ∀ x ∈ chars, x < 256) : 1 ≤ unique_chars chars := by
  rcases List.exists_mem_of_ne_nil chars hne with ⟨c, hc⟩
  have hpos := List.count_pos_iff.mpr hc
  have hmem : c ∈ (List.range 256).filter (fun x => chars.count x != 0) :=
    List.mem_filter.mpr ⟨List.mem_range.mpr (hcb c hc),
      by simp only [bne_iff_ne, ne_eq]; omega⟩
  exact List.length_pos.mpr (List.ne_nil_of_mem hmem)

lemma route_diff_eq_bps {a m : Nat} {chars : List Nat} {tbl : Nat → Nat × Nat} {d : Nat}
    (hcb : ∀ x ∈ chars, x < 256)
    (h : route a m chars (fun _ => (0, 0)) (max_occurrence chars) = some (tbl, d)) :
    d = max_occurrence chars := by
  have hs := route_some_spec chars [] (fun _ => (0, 0)) (max_occurrence chars) tbl d
    (rinv_nil a m) h
  have h1 := hs.2.1
  have h2 := hs.2.2 (max_occurrence chars) (le_refl _) (fun x hx => by
    have hx' : x ∈ chars := by simpa using hx
    simpa using count_le_max_occurrence (hcb x hx'))
  omega

lemma tryPrimes_first {chars : List Nat} (hcb : ∀ x ∈ chars, x < 256)
    (hbps_le : max_occurrence chars ≤ chars.length) (m : Nat) :
    ∀ (L : List Nat) (b : Best), b.score = chars.length + 1 →
      ((∀ a ∈ L, route a m chars (fun _ => (0, 0)) (max_occurrence chars) = none) ∧
        tryPrimes chars (max_occurrence chars) m L b = (b, false)) ∨
      (∃ a ∈ L, ∃ tbl, route a m chars (fun _ => (0, 0)) (max_occurrence chars)
          = some (tbl, max_occurrence chars) ∧
        tryPrimes chars (max_occurrence chars) m L b =
          (⟨max_occurrence chars, a, m, tbl⟩, true)) := by
  intro L
  induction L with
  | nil =>
    intro b _
    exact Or.inl ⟨by simp, rfl⟩
  | cons a L ih =>
    intro b hb
    cases hr : route a m chars (fun _ => (0, 0)) (max_occurrence chars) with
    | none =>
      rcases ih b hb with ⟨hall, heq⟩ | ⟨a', ha', tbl, hroute, heq⟩
      · refine Or.inl ⟨?_, ?_⟩
        · intro x hx
          rcases List.mem_cons.mp hx with rfl | hx'
          · exact hr
          · exact hall x hx'
        · simp only [tryPrimes, hr]
          exact heq
      · refine Or.inr ⟨a', List.mem_cons_of_mem a ha', tbl, hroute, ?_⟩
        simp only [tryPrimes, hr]
        exact heq
    | some out =>
      obtain ⟨tbl, diff⟩ := out
      have hdiff : diff = max_occurrence chars := route_diff_eq_bps hcb hr
      subst hdiff
      refine Or.inr ⟨a, List.mem_cons_self a L, tbl, hr, ?_⟩
      simp only [tryPrimes, hr]
      rw [if_pos (show max_occurrence chars < b.score by omega)]
      rw [if_pos (show (⟨max_occurrence chars, a, m, tbl⟩ : Best).score
        = max_occurrence chars from rfl)]

lemma searchSlots_first {chars : List Nat} (hcb : ∀ x ∈ chars, x < 256)
    (hbps_le : max_occurrence chars ≤ chars.length) :
    ∀ (fuel m : Nat) (b : Best), b.score = chars.length + 1 →
      m < 255 → 255 ≤ m + fuel →
      ∃ mf a tbl, m < mf ∧ mf ≤ 255 ∧ a ∈ primes ∧
        (∀ m', m < m' → m' < mf → ∀ a' ∈ primes,
          route a' m' chars (fun _ => (0, 0)) (max_occurrence chars) = none) ∧
        route a mf chars (fun _ => (0, 0)) (max_occurrence chars)
          = some (tbl, max_occurrence chars) ∧
        searchSlots chars (max_occurrence chars) fuel m b
          = ⟨max_occurrence chars, a, mf, tbl⟩ := by
  intro fuel
  induction fuel with
  | zero => intro m b _ h1 h2; omega
  | succ fuel ih =>
    intro m b hb hm255 hfuel
    have hm' : (m + 1) % 256 = m + 1 := Nat.mod_eq_of_lt (by omega)
    rcases tryPrimes_first hcb hbps_le (m + 1) primes b hb with ⟨hall, heq⟩ |
      ⟨a, ha, tbl, hroute, heq⟩
    · -- no success at m + 1
      by_cases h255 : m + 1 = 255
      · exfalso
        rcases route_id_some 2 chars (fun _ => (0, 0)) (max_occurrence chars)
            (fun s h => absurd rfl h) with ⟨out, hout⟩
        have h2 := hall 2 (by simp [primes])
        rw [h255] at h2
        rw [h2] at hout
        exact absurd hout (by simp)
      · have hrec := ih (m + 1) b hb (by omega) (by omega)
        obtain ⟨mf, a, tbl, hmf1, hmf2, ha, hnone, hroute, heq2⟩ := hrec
        refine ⟨mf, a, tbl, by omega, hmf2, ha, ?_, hroute, ?_⟩
        · intro m' hm'1 hm'2 a' ha'
          rcases Nat.eq_or_lt_of_le (Nat.succ_le_of_lt hm'1) with he | hlt
          · rw [← he]
            exact hall a' ha'
          · exact hnone m' (by omega) hm'2 a' ha'
        · simp only [searchSlots, hm', heq]
          rw [if_neg (show ¬ (((b, false) : Best × Bool).2 = true) by simp)]
          rw [if_pos (show m + 1 < 255 by omega)]
          exact heq2
    · -- first success at m + 1
      refine ⟨m + 1, a, tbl, by omega, by omega, ha, by omega, hroute, ?_⟩
      simp only [searchSlots, hm', heq]
      simp

lemma find_best_hash_first (chars : List Nat) (hcb : ∀ x ∈ chars, x < 256)
    (hne : chars ≠ []) (hmu255 : unique_chars chars ≤ 255) :
    ∃ a tbl,
      a ∈ primes ∧
      unique_chars chars
        ≤ (find_best_hash chars (max_occurrence chars) (unique_chars chars)).2.1 ∧
      (find_best_hash chars (max_occurrence chars) (unique_chars chars)).2.1 ≤ 255 ∧
      (∀ m', unique_chars chars ≤ m' →
        m' < (find_best_hash chars (max_occurrence chars) (unique_chars chars)).2.1 →
        ∀ a' ∈ primes,
          route a' m' chars (fun _ => (0, 0)) (max_occurrence chars) = none) ∧
      (find_best_hash chars (max_occurrence chars) (unique_chars chars)).1 = a ∧
      route a (find_best_hash chars (max_occurrence chars) (unique_chars chars)).2.1 chars
        (fun _ => (0, 0)) (max_occurrence chars)
        = some (tbl, max_occurrence chars) := by
  have hmu1 : 1 ≤ unique_chars chars := one_le_unique_chars hne hcb
  have hbps_le : max_occurrence chars ≤ chars.length := max_occurrence_le_length chars
  have hm0 : (unique_chars chars + 255) % 256 = unique_chars chars - 1 := by
    have : unique_chars chars + 255 = (unique_chars chars - 1) + 256 := by omega
    rw [this]
    rw [Nat.add_mod_right]
    exact Nat.mod_eq_of_lt (by omega)
  obtain ⟨mf, a, tbl, hmf1, hmf2, ha, hnone, hroute, heq⟩ :=
    searchSlots_first hcb hbps_le 256 (unique_chars chars - 1)
      ⟨chars.length + 1, 0, 0, fun _ => (0, 0)⟩ rfl (by omega) (by omega)
  have hfbh : find_best_hash chars (max_occurrence chars) (unique_chars chars)
      = (a, mf, (List.range (mf + 1)).map tbl) := by
    unfold find_best_hash
    rw [hm0, heq]
  refine ⟨a, tbl, ha, ?_, ?_, ?_, ?_, ?_⟩
  · rw [hfbh]; simpa using by omega
  · rw [hfbh]; simpa using hmf2
  · intro m' h1 h2 a' ha'
    rw [hfbh] at h2
    simp only at h2
    exact hnone m' (by omega) h2 a' ha'
  · rw [hfbh]
  · rw [hfbh]
    simpa using hroute

/-! ### Arithmetic range of the hash kernel -/

/-- Bytes below 256 have XOR below 256: the kernel's operand fits in 8 bits. -/
lemma xor_lt_256 {x y : Nat} (hx : x < 256) (hy : y < 256) : x ^^^ y < 256 := by
  have hx8 : x < 2 ^ 8 := by norm_num; omega
  have hy8 : y < 2 ^ 8 := by norm_num; omega
  have h := Nat.bitwise_lt (f := bne) hx8 hy8
  have h2 : x ^^^ y < 2 ^ 8 := h
  omega

/-! ### Slot accounting: total = occupied + empty -/

mutual
/-- Every slot of a tree is occupied (leaf or branch) or empty. -/
theorem totalSlots_split : ∀ t : HTree, totalSlots t = occupiedSlots t + emptySlots t
  | .node _ _ _ slots => totalSlotsL_split slots
theorem totalSlotsL_split :
    ∀ slots : List HSlot, totalSlotsL slots = occupiedSlotsL slots + emptySlotsL slots
  | [] => rfl
  | s :: rest => by
    simp only [totalSlotsL, occupiedSlotsL, emptySlotsL]
    rw [totalSlotsS_split s, totalSlotsL_split rest]
    omega
theorem totalSlotsS_split :
    ∀ sl : HSlot, totalSlotsS sl = occupiedSlotsS sl + emptySlotsS sl
  | .empty => rfl
  | .leaf _ _ _ => rfl
  | .branch _ child => by
    simp only [totalSlotsS, occupiedSlotsS, emptySlotsS]
    rw [totalSlots_split child]
    omega
end

/-! ### The claims -/

/-- C1 (amended): for every non-empty list of key/payload pairs whose keys
are pairwise distinct AS VIRTUALLY 0x00-PADDED BYTE STREAMS (not merely
distinct as byte strings), `create_binary_hash` returns a tree, every input
key looks up to its own payload, and every successful lookup comes from an
input pair — so a key outside the input is never found.  Distinctness of the
raw byte strings is not enough: see the counterexample. -/
theorem claim_C1 (pairs : List (List Nat × Nat))
    (hne : pairs ≠ [])
    (hb : ∀ p ∈ pairs, ∀ b ∈ p.1, b < 256)
    (hdist : pairs.Pairwise (fun p q => ¬ PadEq p.1 q.1)) :
    ∃ t, create_binary_hash pairs = some t ∧
      (∀ p ∈ pairs, lookup_binary p.1 t = some p.2) ∧
      (∀ q pl, lookup_binary q t = some pl → (q, pl) ∈ pairs) ∧
      (∀ q, q ∉ pairs.map Prod.fst → lookup_binary q t = none) := by
  obtain ⟨t, h1, h2, h3⟩ :=
    build_main pairs.length pairs (le_refl _) hne hb hdist
  refine ⟨t, h1, h2, h3, ?_⟩
  intro q hq
  cases hl : lookup_binary q t with
  | none => rfl
  | some pl =>
    exact absurd (List.mem_map_of_mem Prod.fst (h3 q pl hl)) hq

/-- C1 witness: the two-key input a ↦ 5, b ↦ 7 builds and looks up. -/
theorem claim_C1_witness :
    ∃ t, create_binary_hash [([97], 5), ([98], 7)] = some t ∧
      (∀ p ∈ [([97], 5), ([98], 7)], lookup_binary p.1 t = some p.2) ∧
      (∀ q pl, lookup_binary q t = some pl → (q, pl) ∈ [([97], 5), ([98], 7)]) ∧
      (∀ q, q ∉ [([97], 5), ([98], 7)].map Prod.fst → lookup_binary q t = none) := by
  refine claim_C1 [([97], 5), ([98], 7)] (by simp) (by decide) ?_
  refine List.pairwise_cons.mpr ⟨?_, by simp⟩
  intro q hq hpe
  have hq' : q = ([98], 7) := by simpa using hq
  subst hq'
  exact absurd (hpe 0) (by decide)

/-- C1 counterexample: the keys 0x61 and 0x61 0x00 are distinct byte strings,
yet their virtually padded streams agree at every column, so the builder
returns the duplicate sentinel instead of a tree. -/
theorem claim_C1_counterexample :
    ([97] : List Nat) ≠ [97, 0] ∧
    create_binary_hash [([97], 0), ([97, 0], 1)] = none := by
  exact ⟨by decide, rfl⟩

/-- C2: an input whose key list repeats a byte string makes
`create_binary_hash` return the sentinel absence (NULL) instead of a tree
root.  (Release of the partially built structures is a heap-lifecycle fact
with no counterpart in this purely functional embedding.) -/
theorem claim_C2 (pairs : List (List Nat × Nat))
    (hb : ∀ p ∈ pairs, ∀ b ∈ p.1, b < 256)
    (hdup : ¬ (pairs.map Prod.fst).Nodup) :
    create_binary_hash pairs = none :=
  build_dup pairs.length pairs hb hdup

/-- C2 witness: two byte-identical keys; the builder reports the duplicate. -/
theorem claim_C2_witness :
    create_binary_hash [([97], 0), ([97], 1)] = none :=
  claim_C2 [([97], 0), ([97], 1)] (by decide) (by decide)

/-- C3 (amended): the slot scan of `find_best_hash` starts at
m = unique_bytes, NOT at unique_bytes − 1: the zero-based count is
incremented at the top of the do-while body, before the first candidate is
tried.  The function still returns the smallest table in the range it does
scan: every zero-based size m' with unique_bytes ≤ m' below the returned one
fails for every prime, and the returned (prime, size) routes all input bytes
with no false positives (final differential score = max occurrence). -/
theorem claim_C3 (chars : List Nat) (hcb : ∀ x ∈ chars, x < 256)
    (hne : chars ≠ []) (hmu : unique_chars chars ≤ 255) :
    unique_chars chars
      ≤ (find_best_hash chars (max_occurrence chars) (unique_chars chars)).2.1 ∧
    (find_best_hash chars (max_occurrence chars) (unique_chars chars)).2.1 ≤ 255 ∧
    (∃ a ∈ primes, ∃ tbl,
      (find_best_hash chars (max_occurrence chars) (unique_chars chars)).1 = a ∧
      route a (find_best_hash chars (max_occurrence chars) (unique_chars chars)).2.1
        chars (fun _ => (0, 0)) (max_occurrence chars)
        = some (tbl, max_occurrence chars)) ∧
    (∀ m', unique_chars chars ≤ m' →
      m' < (find_best_hash chars (max_occurrence chars) (unique_chars chars)).2.1 →
      ∀ a' ∈ primes,
        route a' m' chars (fun _ => (0, 0)) (max_occurrence chars) = none) := by
  obtain ⟨a, tbl, ha, h1, h2, h3, h4, h5⟩ := find_best_hash_first chars hcb hne hmu
  exact ⟨h1, h2, ⟨a, ha, tbl, h4, h5⟩, h3⟩

/-- C3 witness: the two-byte input 0x61 0x62. -/
theorem claim_C3_witness :
    unique_chars [97, 98]
      ≤ (find_best_hash [97, 98] (max_occurrence [97, 98]) (unique_chars [97, 98])).2.1 ∧
    (find_best_hash [97, 98] (max_occurrence [97, 98]) (unique_chars [97, 98])).2.1 ≤ 255 ∧
    (∃ a ∈ primes, ∃ tbl,
      (find_best_hash [97, 98] (max_occurrence [97, 98]) (unique_chars [97, 98])).1 = a ∧
      route a (find_best_hash [97, 98] (max_occurrence [97, 98]) (unique_chars [97, 98])).2.1
        [97, 98] (fun _ => (0, 0)) (max_occurrence [97, 98])
        = some (tbl, max_occurrence [97, 98])) ∧
    (∀ m', unique_chars [97, 98] ≤ m' →
      m' < (find_best_hash [97, 98] (max_occurrence [97, 98]) (unique_chars [97, 98])).2.1 →
      ∀ a' ∈ primes,
        route a' m' [97, 98] (fun _ => (0, 0)) (max_occurrence [97, 98]) = none) :=
  claim_C3 [97, 98] (by decide) (by decide) (by decide)

/-- C3 counterexample: for the input 0x61 alone, unique_bytes = 1 and a
perfect table with exactly 1 slot exists (prime 2 routes the single byte with
no false positive at zero-based size 0), yet the returned table has 2 slots:
the scan never visits size unique_bytes − 1 = 0, because the zero-based count
is pre-incremented. -/
theorem claim_C3_counterexample :
    unique_chars [97] = 1 ∧
    (∃ a ∈ primes, ∃ tbl d,
      route a 0 [97] (fun _ => (0, 0)) (max_occurrence [97]) = some (tbl, d)) ∧
    (find_best_hash [97] (max_occurrence [97]) (unique_chars [97])).2.1 + 1 ≠ 1 := by
  refine ⟨by decide, ⟨2, by decide, ?_⟩, by decide⟩
  exact ⟨_, _, rfl⟩

/-- C4: the claim is false of the code.  When a slot of the node under
construction has count ≥ 2, the gathering loop iterates over ALL keys of the
node and dereferences byte `node->column` of each without any length check —
the virtual-0x00 rule is applied in the singleton branch and in the recursive
survey, but not here.  On the input "" (empty key), "a", "ab" the builder
succeeds, yet at the root it reads byte 0 of the empty key, one past its
end. -/
theorem claim_C4 :
    gather_reads_out_of_bounds [([], 0), ([97], 1), ([97, 98], 2)] = true ∧
    (create_binary_hash [([], 0), ([97], 1), ([97, 98], 2)]).isSome = true := by
  exact ⟨by decide, by decide⟩

/-- C5: `find_best_hash` (total in this embedding, so terminating on every
input) returns a (prime, zero-based size) pair under which two distinct byte
values occurring in the input always hash to different slots: the routing
simulation rejects any candidate that would put two different bytes in one
slot, and the m = 255 identity pass guarantees some candidate survives. -/
theorem claim_C5 (chars : List Nat) :
    ∀ b1 ∈ chars, ∀ b2 ∈ chars, b1 ≠ b2 →
      hash_function b1 (find_best_hash chars (max_occurrence chars) (unique_chars chars)).1
          (find_best_hash chars (max_occurrence chars) (unique_chars chars)).2.1
        ≠ hash_function b2 (find_best_hash chars (max_occurrence chars) (unique_chars chars)).1
          (find_best_hash chars (max_occurrence chars) (unique_chars chars)).2.1 := by
  intro b1 h1 b2 h2 hne heq
  obtain ⟨tbl, hinv, _⟩ := find_best_hash_rinv chars (max_occurrence chars)
    (unique_chars chars) (max_occurrence_le_length chars)
  have e1 := (hinv.1 b1 h1).1
  have e2 := (hinv.1 b2 h2).1
  rw [heq] at e1
  exact hne (e1.symm.trans e2)

/-- C5 witness: the bytes 0x61 and 0x62 of the input 0x61 0x62 land in
different slots of the selected table. -/
theorem claim_C5_witness :
    hash_function 97 (find_best_hash [97, 98] (max_occurrence [97, 98]) (unique_chars [97, 98])).1
        (find_best_hash [97, 98] (max_occurrence [97, 98]) (unique_chars [97, 98])).2.1
      ≠ hash_function 98 (find_best_hash [97, 98] (max_occurrence [97, 98]) (unique_chars [97, 98])).1
        (find_best_hash [97, 98] (max_occurrence [97, 98]) (unique_chars [97, 98])).2.1 :=
  claim_C5 [97, 98] 97 (by decide) 98 (by decide) (by decide)

/-- C6: the byte-hash kernel is the identity when the zero-based size is 255,
and otherwise computes (((a − 1) XOR b) × a) mod (m + 1) with the product
taken exactly before the modulus: for a byte b and a prime a of the fixed
table the product is below 2^16, so 16-bit arithmetic never overflows. -/
theorem claim_C6 (b a m : Nat) (hb : b < 256) (ha : a ∈ primes) :
    (m = 255 → hash_function b a m = b) ∧
    (m ≠ 255 →
      hash_function b a m = (((a - 1) ^^^ b) * a) % (m + 1) ∧
      ((a - 1) ^^^ b) * a < 2 ^ 16) := by
  have ha256 : a < 256 := by
    have h := (by decide : ∀ x ∈ primes, x < 256)
    exact h a ha
  refine ⟨fun hm => by simp [hash_function, hm], fun hm => ⟨?_, ?_⟩⟩
  · simp [hash_function, hm]
  · have hx : (a - 1) ^^^ b < 256 := xor_lt_256 (by omega) hb
    calc ((a - 1) ^^^ b) * a ≤ 255 * 255 := Nat.mul_le_mul (by omega) (by omega)
      _ < 2 ^ 16 := by norm_num

/-- C6 witness: byte 0x61 with prime 2 and zero-based size 3. -/
theorem claim_C6_witness :
    ((3 : Nat) = 255 → hash_function 97 2 3 = 97) ∧
    ((3 : Nat) ≠ 255 →
      hash_function 97 2 3 = (((2 - 1) ^^^ 97) * 2) % (3 + 1) ∧
      ((2 - 1) ^^^ 97) * 2 < 2 ^ 16) :=
  claim_C6 97 2 3 (by decide) (by decide)

/-- C7: whenever construction succeeds, the depth of the resulting tree (the
longest root-to-leaf chain of nodes) is at most the largest key length plus
one, the +1 accounting for the virtual byte read past the shortest keys. -/
theorem claim_C7 (pairs : List (List Nat × Nat)) (t : HTree)
    (hb : ∀ p ∈ pairs, ∀ b ∈ p.1, b < 256)
    (hs : create_binary_hash pairs = some t) :
    depth t ≤ maxLen (pairs.map Prod.fst) + 1 :=
  build_depth_bound hb hs

/-- C7 witness: the tree built from a ↦ 5, b ↦ 7 has depth within the bound. -/
theorem claim_C7_witness :
    depth ((create_binary_hash [([97], 5), ([98], 7)]).getD (HTree.node 0 0 0 []))
      ≤ maxLen ([([97], 5), ([98], 7)].map Prod.fst) + 1 :=
  claim_C7 [([97], 5), ([98], 7)]
    ((create_binary_hash [([97], 5), ([98], 7)]).getD (HTree.node 0 0 0 []))
    (by decide) rfl

/-- C8 (amended): the efficiency walk reports slots_used equal to the TOTAL
number of slots of the tree — occupied AND empty alike, since the counter is
incremented once per slot before the per-kind branch — not the number of
occupied slots; empty_slots counts the empty ones, slot_efficiency is
slots_used × 100 / (slots_used + empty_slots) in integer arithmetic (so with
slots_used already including the empty slots), and max_comparisons is the
longest root-to-leaf depth.  Total, occupied and empty are related by
total = occupied + empty. -/
theorem claim_C8 (t : HTree) :
    hash_efficiency t = (totalSlots t, emptySlots t, depth t) ∧
    hash_table_efficiency t
      = (totalSlots t * 100 / (totalSlots t + emptySlots t), depth t) ∧
    totalSlots t = occupiedSlots t + emptySlots t := by
  refine ⟨hash_eff_tree t, ?_, totalSlots_split t⟩
  unfold hash_table_efficiency
  rw [hash_eff_tree t]

/-- C8 witness: a one-slot node holding only an empty slot. -/
theorem claim_C8_witness :
    hash_efficiency (HTree.node 0 2 0 [HSlot.empty])
      = (totalSlots (HTree.node 0 2 0 [HSlot.empty]),
         emptySlots (HTree.node 0 2 0 [HSlot.empty]),
         depth (HTree.node 0 2 0 [HSlot.empty])) ∧
    hash_table_efficiency (HTree.node 0 2 0 [HSlot.empty])
      = (totalSlots (HTree.node 0 2 0 [HSlot.empty]) * 100
          / (totalSlots (HTree.node 0 2 0 [HSlot.empty])
             + emptySlots (HTree.node 0 2 0 [HSlot.empty])),
         depth (HTree.node 0 2 0 [HSlot.empty])) ∧
    totalSlots (HTree.node 0 2 0 [HSlot.empty])
      = occupiedSlots (HTree.node 0 2 0 [HSlot.empty])
        + emptySlots (HTree.node 0 2 0 [HSlot.empty]) :=
  claim_C8 (HTree.node 0 2 0 [HSlot.empty])

/-- C8 counterexample: the tree actually built from a ↦ 5, b ↦ 7 has three
slots, one of them empty; the walk reports slots_used = 3, not the number of
occupied slots, which is 2. -/
theorem claim_C8_counterexample :
    (create_binary_hash [([97], 5), ([98], 7)]).isSome = true ∧
    (hash_efficiency ((create_binary_hash [([97], 5), ([98], 7)]).getD
        (HTree.node 0 0 0 []))).1
      ≠ occupiedSlots ((create_binary_hash [([97], 5), ([98], 7)]).getD
        (HTree.node 0 0 0 [])) := by
  exact ⟨by decide, by decide⟩

/-- C9: the byte builder produces its single node (one level, no children, by
the very shape of `CharNode`), silently coalescing duplicate byte values, and
after construction every byte value present in the input looks up to the
payload of its LAST occurrence in input order. -/
theorem claim_C9 (chars payloads : List Nat)
    (hlen : payloads.length = chars.length)
    (hcb : ∀ x ∈ chars, x < 256) :
    ∀ b ∈ chars, ∃ p, lastPayload b (chars.zip payloads) = some p ∧
      lookup_character b (create_character_hash chars payloads) = some p :=
  fun _b hb => create_character_hash_spec hlen hcb hb

/-- C9 witness: on bytes 0x61, 0x62, 0x61 with payloads 1, 2, 3 the byte 0x61
keeps the payload of its last occurrence. -/
theorem claim_C9_witness :
    ∃ p, lastPayload 97 ([97, 98, 97].zip [1, 2, 3]) = some p ∧
      lookup_character 97 (create_character_hash [97, 98, 97] [1, 2, 3]) = some p :=
  claim_C9 [97, 98, 97] [1, 2, 3] (by decide) (by decide) 97 (by decide)

/-- C10: an empty input makes `create_binary_hash` return the same sentinel
absence (NULL) that signals a duplicate key, so the two conditions are
indistinguishable at the interface. -/
theorem claim_C10 :
    create_binary_hash [] = none ∧
    create_binary_hash [([0], 0), ([0], 1)] = none :=
  ⟨rfl, rfl⟩

end ACPH
